import Mathlib

/-!
Verification development for the ontology structure analyzer of
`rust-kg-explorer`.

The Rust source is shallowly embedded: the derived class-relation graph
(`petgraph::Graph<String, (String, f64, Option<f64>, Option<f64>)>`) becomes
`KGraph K`, a list of nodes (class names, plus the `"Literal"` sink) together
with a list of labelled weighted edges.  Floating point numbers are modelled
by an arbitrary linear ordered field `K` (instantiated with `ℚ` for concrete
witnesses and with `ℝ` where the source uses `sqrt`/`exp`/`ln`); float
arithmetic is idealized as exact field arithmetic.  Fallible or panicking
code is modelled with `Option`/`Except`.  Randomness is modelled by passing
the outcome of the random source (start nodes and chosen edges) explicitly.
-/

namespace KGExplorer

set_option linter.unusedSectionVars false

/-- An edge of the class-relation graph: the edge weight in the Rust source is
the tuple `(String, f64, Option<f64>, Option<f64>)` (predicate name, raw
count, forward probability, backward probability); source and destination
class names identify the endpoints (`node_map` is injective in the source:
one node per distinct class name). -/
structure KEdge (K : Type) where
  src : String
  dst : String
  pred : String
  cnt : K
  fprob : Option K
  bprob : Option K
  deriving Repr, DecidableEq

/-- The class-relation graph: `petgraph::Graph<String, ...>` with its node map.
`nodes` lists the node labels (class names and the `"Literal"` sink). -/
structure KGraph (K : Type) where
  nodes : List String
  edges : List (KEdge K)
  deriving Repr, DecidableEq

variable {K : Type} [LinearOrderedField K]

/-- Outgoing edges of node `n` (edges whose source is `n`). -/
def outEdges (g : KGraph K) (n : String) : List (KEdge K) :=
  g.edges.filter (fun e => e.src = n)

/-- Incoming edges of node `n` (edges whose destination is `n`). -/
def inEdges (g : KGraph K) (n : String) : List (KEdge K) :=
  g.edges.filter (fun e => e.dst = n)

/-- Sum of raw counts over the outgoing edges of `n` (the accumulator `s` of
the first pass of `calculate_probabilities_for_graph`). -/
def outSum (g : KGraph K) (n : String) : K :=
  ((outEdges g n).map (fun e => e.cnt)).sum

/-- Sum of raw counts over the incoming edges of `n` (the accumulator `s2` of
the second pass of `calculate_probabilities_for_graph`). -/
def inSum (g : KGraph K) (n : String) : K :=
  ((inEdges g n).map (fun e => e.cnt)).sum

/-- First pass of `calculate_probabilities_for_graph` (utils.rs): for every
node, every outgoing edge's weight is rewritten to
`(name, cnt, Some(cnt / s), None)` where `s` sums the raw counts of that
node's outgoing edges.  Every edge is the outgoing edge of exactly one node
(its source), so the per-node loop amounts to this edge-wise map. -/
def forwardPass (g : KGraph K) : KGraph K :=
  { g with edges := g.edges.map (fun e =>
      { e with fprob := some (e.cnt / outSum g e.src), bprob := none }) }

/-- Second pass: every incoming edge's weight is rewritten to
`(name, cnt, pr, Some(cnt / s2))`, keeping the forward probability `pr`. -/
def backwardPass (g : KGraph K) : KGraph K :=
  { g with edges := g.edges.map (fun e =>
      { e with bprob := some (e.cnt / inSum g e.dst) }) }

/-- `calculate_probabilities_for_graph` from utils.rs: fill in the forward
probabilities, then the backward probabilities. -/
def calculate_probabilities_for_graph (g : KGraph K) : KGraph K :=
  backwardPass (forwardPass g)

/-- Concrete rational test graph used as the C3 witness input. -/
def c3wGraph : KGraph ℚ :=
  { nodes := ["A", "B", "Literal"],
    edges := [⟨"A", "B", "p", 1, none, none⟩, ⟨"A", "Literal", "q", 3, none, none⟩] }

/-- Walk direction (`petgraph::Direction`): `out` is `Outgoing`, `inc` is
`Incoming`. -/
inductive WDir where
  | out
  | inc
  deriving Repr, DecidableEq

/-- The node an edge leaves when walked in direction `d` (for `Incoming`
walks the roles of source and destination swap). -/
def dirSrc (d : WDir) (e : KEdge K) : String :=
  match d with
  | .out => e.src
  | .inc => e.dst

/-- The node an edge enters when walked in direction `d`. -/
def dirDst (d : WDir) (e : KEdge K) : String :=
  match d with
  | .out => e.dst
  | .inc => e.src

/-- The counter state of `KG::page_rank` (store.rs): the `page_rank` and
`edge_rank` hash maps (modelled as total functions, absent keys are 0) and
the two global counters `total` and `ertotal`. -/
structure RWState (K : Type) where
  pr : String → K
  er : String → String → K
  total : K
  ertotal : K

variable {K : Type} [LinearOrderedField K] in
/-- Increment a counter map at one key (`*map.get_mut(x) += c`). -/
def bump (f : String → K) (x : String) (c : K) : String → K :=
  fun y => if y = x then f y + c else f y

variable {K : Type} [LinearOrderedField K] in
/-- Increment a two-level counter map at one key pair. -/
def bump2 (f : String → String → K) (x p : String) (c : K) :
    String → String → K :=
  fun y q => if y = x ∧ q = p then f y q + c else f y q

/-- One recorded walk of the random source: the sampled start class and the
indices (into `g.edges`) of the successively sampled edges.  The source
samples by `choice`, which only ever returns keys present in the weighted
map, so a faithful outcome names existing edges leaving the current node;
any other index models an impossible draw and simply stops the walk. -/
structure RWalk where
  start : String
  steps : List ℕ
  deriving Repr, DecidableEq

/-- The inner `for _ in 0..10` loop of `KG::page_rank`, with the edge drawn
at each step supplied by the outcome.  At each step: record the traversal in
`edge_rank` and `ertotal`; move along the edge; if the destination is the
`"Literal"` sink, attribute the edge's forward probability (`.2.unwrap()`)
as additional `page_rank` mass to the class being left and stop; otherwise
count the visit in `page_rank` and `total` and continue. -/
def runSteps (g : KGraph K) (d : WDir) :
    List ℕ → String → RWState K → RWState K
  | [], _, st => st
  | i :: rest, cur, st =>
    match g.edges.get? i with
    | none => st
    | some e =>
      if dirSrc d e = cur then
        if dirDst d e = "Literal" then
          { st with pr := bump st.pr cur (e.fprob.getD 0),
                    er := bump2 st.er cur e.pred 1,
                    ertotal := st.ertotal + 1 }
        else
          runSteps g d rest (dirDst d e)
            { st with pr := bump st.pr (dirDst d e) 1,
                      er := bump2 st.er cur e.pred 1,
                      total := st.total + 1,
                      ertotal := st.ertotal + 1 }
      else st

/-- One full walk: count the start visit, then run the steps. -/
def runWalk (g : KGraph K) (d : WDir) (w : RWalk) (st : RWState K) : RWState K :=
  runSteps g d w.steps w.start
    { st with pr := bump st.pr w.start 1, total := st.total + 1 }

/-- The outer walk loop (`for _ in 0..10000`); the outcome lists one `RWalk`
per iteration. -/
def runWalks (g : KGraph K) (d : WDir) :
    List RWalk → RWState K → RWState K
  | [], st => st
  | w :: ws, st => runWalks g d ws (runWalk g d w st)

/-- All counters start at zero. -/
def initState (K : Type) [LinearOrderedField K] : RWState K :=
  ⟨fun _ => 0, fun _ _ => 0, 0, 0⟩

/-- `KG::page_rank`: run the walks, then normalize (`pr /= total`,
`er /= ertotal`). -/
def page_rank (g : KGraph K) (d : WDir) (outc : List RWalk) : RWState K :=
  let st := runWalks g d outc (initState K)
  { st with
    pr := fun n => st.pr n / st.total,
    er := fun c p => st.er c p / st.ertotal }

/-- Sum of the per-class page-rank values over all graph nodes. -/
def prSum (g : KGraph K) (st : RWState K) : K :=
  (g.nodes.map st.pr).sum

/-- The distinct predicate names appearing on edges. -/
def gpreds (g : KGraph K) : List String :=
  (g.edges.map (fun e => e.pred)).dedup

/-- Sum of the edge-rank values over all (class, predicate) pairs. -/
def erSum (g : KGraph K) (st : RWState K) : K :=
  (g.nodes.map (fun n => ((gpreds g).map (st.er n)).sum)).sum

/-- Concrete graph for the C2 counterexample: one class with a single
literal-valued predicate, forward probability 1. -/
def cexGraph : KGraph ℚ :=
  { nodes := ["A", "Literal"],
    edges := [⟨"A", "Literal", "p", 1, some 1, none⟩] }

/-- The 10000-walk outcome in which every walk starts at "A" and follows the
single outgoing edge into the Literal sink. -/
def cexOutcome : List RWalk :=
  List.replicate 10000 ⟨"A", [0]⟩

/-- The canonical IRI synthesized for the hinted root name
(`format!("<http://schema.org/{}>", start_with)` in `remove_disconnected`). -/
def rootIRI (start_with : String) : String :=
  "<http://schema.org/" ++ start_with ++ ">"

/-- The neighbor pushes of one dequeued node in `remove_disconnected`
(utils.rs): for every outgoing edge, if the target is not the Literal sink,
enqueue `(target, depth + 1.0)`. -/
def bfsPushes (g : KGraph K) (ent : String) (depth : K) : List (String × K) :=
  (outEdges g ent).filterMap
    (fun e => if e.dst = "Literal" then none else some (e.dst, depth + 1))

/-- The `while items.len() > 0` loop of `remove_disconnected`, with explicit
fuel (the loop always terminates within `g.edges.length + 2` iterations, see
`bfs_iterations_bound`).  Take the front of the queue: an already-seen entry
is dropped; otherwise the entry is recorded in `order`, its non-Literal
out-neighbors are enqueued, and the front is removed.  A front whose class
is not a graph node makes the source panic on the `node_map[&ent]` lookup
(after the `order.push`); the model halts there. -/
def bfsAux (g : KGraph K) :
    ℕ → List String → List (String × K) → List (String × K) → List (String × K)
  | 0, _, _, order => order
  | fuel + 1, seen, items, order =>
    match items with
    | [] => order
    | (ent, depth) :: rest =>
      if ent ∈ seen then bfsAux g fuel seen rest order
      else if ent ∈ g.nodes then
        bfsAux g fuel (ent :: seen) (rest ++ bfsPushes g ent depth)
          (order ++ [(ent, depth)])
      else order ++ [(ent, depth)]

/-- Non-Literal out-degree of a node: the number of queue entries its
processing pushes. -/
def outdegNL (g : KGraph K) (n : String) : ℕ :=
  (g.edges.filter (fun e => e.src = n ∧ ¬ e.dst = "Literal")).length

/-- Loop potential: queue length plus the pushes still owed by unseen nodes;
it strictly decreases with every iteration. -/
def bfsPot (g : KGraph K) (seen : List String) (items : List (String × K)) : ℕ :=
  items.length + ((g.nodes.filter (fun n => ¬ n ∈ seen)).map (outdegNL g)).sum

/-- `remove_disconnected` (utils.rs): BFS from the synthesized root IRI at
depth 0.0, then reverse the discovery order. -/
def remove_disconnected (g : KGraph K) (start_with : String) : List (String × K) :=
  (bfsAux g (g.edges.length + 2) [] [(rootIRI start_with, 0)] []).reverse

/-- Concrete rational test graph for the C9 witness: the synthesized root
for hint "Thing", one reachable class "B", one unreachable class "C", and
the Literal sink. -/
def c9wGraph : KGraph ℚ :=
  { nodes := ["<http://schema.org/Thing>", "B", "C", "Literal"],
    edges := [⟨"<http://schema.org/Thing>", "B", "p", 1, none, none⟩,
              ⟨"<http://schema.org/Thing>", "Literal", "q", 2, none, none⟩] }

/-- One step along an edge of the graph that does not land on the Literal
sink (the only moves the traversal of `remove_disconnected` makes). -/
def stepRel (g : KGraph K) (a b : String) : Prop :=
  ∃ e ∈ g.edges, e.src = a ∧ e.dst = b ∧ b ≠ "Literal"

/-- `reachN g a n c`: there is a walk of exactly `n` non-Literal steps from
`a` to `c` along outgoing edges. -/
def reachN (g : KGraph K) (a : String) : ℕ → String → Prop
  | 0, c => c = a
  | n + 1, c => ∃ b, reachN g a n b ∧ stepRel g b c

/-- `minReach g a c n`: `n` is the length of a shortest walk from `a` to
`c` (the BFS distance). -/
def minReach (g : KGraph K) (a : String) (c : String) (n : ℕ) : Prop :=
  reachN g a n c ∧ ∀ m, reachN g a m c → n ≤ m

/-- The breadth-first loop invariant of `remove_disconnected`, over the
current `seen` set, queue `items` and discovery list `order`, for a
traversal rooted at `root`. -/
structure BfsInv (g : KGraph K) (root : String) (seen : List String)
    (items : List (String × K)) (order : List (String × K)) : Prop where
  seen_eq : ∀ c, c ∈ seen ↔ c ∈ order.map Prod.fst
  order_nodup : (order.map Prod.fst).Nodup
  order_dist : ∀ p ∈ order, ∃ n : ℕ, p.2 = (n : K) ∧ minReach g root p.1 n
  items_sound : ∀ p ∈ items, ∃ n : ℕ, p.2 = (n : K) ∧ reachN g root n p.1
  items_sorted : List.Pairwise (fun a b => a ≤ b) (items.map Prod.snd)
  items_bound : ∀ p q, items.head? = some p → q ∈ items → q.2 ≤ p.2 + 1
  closure : ∀ v ∈ seen, ∀ w, stepRel g v w → w ∈ seen ∨
    ∃ dv : ℕ, (w, ((dv + 1 : ℕ) : K)) ∈ items ∧ minReach g root v dv
  frontier : ∀ (n : ℕ) (c : String), reachN g root n c → c ∈ seen ∨
    ∃ (b : String) (db m : ℕ), (b, (db : K)) ∈ items ∧ db + m ≤ n ∧ reachN g b m c

/-- One entry of the `stats` vector handed to `KG::rank` (store.rs):
`(node, entityCount, depthScore, forwardRank, backwardRank)`; the caller
`stat_anal_types` passes `depthScore = 1/(1+depth)`. -/
structure RankStat (K : Type) where
  node : String
  count : K
  depth : K
  fpr : K
  rpr : K

/-- Composite score of one class in `KG::rank`:
`(count / total_count).sqrt().sqrt() * depth.sqrt() * (fpr * 3.0 + rpr)`. -/
noncomputable def compositeScore (totalCount : ℝ) (st : RankStat ℝ) : ℝ :=
  Real.sqrt (Real.sqrt (st.count / totalCount)) * Real.sqrt st.depth
    * (st.fpr * 3 + st.rpr)

/-- The normalized weights of `KG::rank`: each class contributes
`score.exp()` to the accumulator `s`, then every entry is divided by `s`. -/
noncomputable def rankWeights (stats : List (RankStat ℝ)) : List (String × ℝ) :=
  (stats.map (fun st => (st.node,
      Real.exp (compositeScore ((stats.map (fun st2 => st2.count)).sum) st)))).map
    (fun p => (p.1, p.2 /
      ((stats.map (fun st => Real.exp
        (compositeScore ((stats.map (fun st2 => st2.count)).sum) st))).sum)))

/-- Descending comparison used by `scores.sort_by(|a, b| b.1.total_cmp(&a.1))`. -/
def weightGE (a b : String × ℝ) : Prop := b.2 ≤ a.2

noncomputable instance : DecidableRel weightGE :=
  fun a b => Real.decidableLE b.2 a.2

instance : IsTotal (String × ℝ) weightGE :=
  ⟨fun a b => le_total b.2 a.2⟩

instance : IsTrans (String × ℝ) weightGE :=
  ⟨fun _ _ _ hab hbc => le_trans hbc hab⟩

/-- The keep loop of `KG::rank`: walk the sorted weights, breaking as soon
as the remaining `limit` is `<= 0.0`, otherwise inserting the entry and
subtracting its weight. -/
def keepLoop : List (String × K) → K → List (String × K)
  | [], _ => []
  | p :: rest, limit => if limit ≤ 0 then [] else p :: keepLoop rest (limit - p.2)

/-- The normalized weights after `scores.sort_by(|a, b| b.1.total_cmp(&a.1))`
(descending by weight). -/
noncomputable def sortedWeights (stats : List (RankStat ℝ)) : List (String × ℝ) :=
  List.insertionSort weightGE (rankWeights stats)

/-- `KG::rank` (store.rs): softmax weights, sorted descending, then the
greedy keep loop against the round threshold `limit`; the result lists the
(class, weight) pairs inserted into the `results` map. -/
noncomputable def rank (stats : List (RankStat ℝ)) (limit : ℝ) : List (String × ℝ) :=
  keepLoop (sortedWeights stats) limit

/-- Sum of the first `k` weights of a weighted list. -/
def psum (l : List (String × K)) (k : ℕ) : K :=
  ((l.take k).map Prod.snd).sum

/-- The per-round removal set of `stat_anal_types` (store.rs): node-map keys
that are neither kept by `rank` nor the Literal sink. -/
def keysToRemove (nodes : List String) (keep : List (String × ℝ)) : List String :=
  nodes.filter (fun k => ¬ (k ∈ keep.map Prod.fst ∨ k = "Literal"))

/-- The per-predicate statistics produced by `stat_anal_single_predicate`
(store.rs); the Rust code stores them in a `HashMap<String, f64>` under the
keys "frequency", "uniqueness", "entropy", "quality". -/
structure BaseRow (K : Type) where
  frequency : K
  uniqueness : K
  entropy : K
  quality : K
  deriving Repr, DecidableEq

/-- A row after `stat_anal_predicates` has attached the "edge_rank" key. -/
structure PredRow (K : Type) where
  frequency : K
  uniqueness : K
  entropy : K
  quality : K
  edge_rank : K
  deriving Repr, DecidableEq

/-- Attach the edge rank to a base row. -/
def BaseRow.withRank (b : BaseRow K) (r : K) : PredRow K :=
  ⟨b.frequency, b.uniqueness, b.entropy, b.quality, r⟩

/-- The raw fused score of `compute_scores` (utils.rs):
`r_scaled = (1.0 + r).ln()`, `structural = f.sqrt() * q * r_scaled`,
`data_based = h * u`, `score = structural * data_based`. -/
noncomputable def rawScore (row : PredRow ℝ) : ℝ :=
  (Real.sqrt row.frequency * row.quality * Real.log (1 + row.edge_rank))
    * (row.entropy * row.uniqueness)

/-- A row after `compute_scores` has inserted the "score" and "keep" keys
(`keep` is the external classifier's confidence from `nn_interface`). -/
structure ScoredRow (K : Type) where
  name : String
  row : PredRow K
  score : K
  keep : K

/-- The softmax accumulator of `compute_scores`: `softmax_sum` collects
`exp(score * inv_temp)` over the rows with nonzero raw score, with
`inv_temp = data.len()`. -/
noncomputable def softmaxDenom (data : List (String × PredRow ℝ)) : ℝ :=
  ((data.filter (fun p => rawScore p.2 ≠ 0)).map
    (fun p => Real.exp (rawScore p.2 * (data.length : ℝ)))).sum

/-- The final per-row score of `compute_scores`: rows with zero raw score
keep score 0; the others get `exp(rawScore*N)` divided by
`softmax_sum / 100.0`. -/
noncomputable def finalScore (data : List (String × PredRow ℝ)) (row : PredRow ℝ) : ℝ :=
  if rawScore row = 0 then 0
  else Real.exp (rawScore row * (data.length : ℝ)) / (softmaxDenom data / 100)

/-- Descending comparison used by
`data.sort_by(|a, b| b.1["score"].total_cmp(&a.1["score"]))`. -/
def scoreGE (a b : ScoredRow ℝ) : Prop := b.score ≤ a.score

noncomputable instance : DecidableRel scoreGE :=
  fun a b => Real.decidableLE b.score a.score

instance : IsTotal (ScoredRow ℝ) scoreGE :=
  ⟨fun a b => le_total b.score a.score⟩

instance : IsTrans (ScoredRow ℝ) scoreGE :=
  ⟨fun _ _ _ hab hbc => le_trans hbc hab⟩

/-- The scoring pass of `compute_scores` followed by the descending sort. -/
noncomputable def computeScoresRun (nn : PredRow ℝ → ℝ)
    (data : List (String × PredRow ℝ)) : List (ScoredRow ℝ) :=
  List.insertionSort scoreGE
    (data.map (fun p => ⟨p.1, p.2, finalScore data p.2, nn p.2⟩))

/-- The `score_ratio` pass of `compute_scores`: for `i` in
`0..data.len()-1`, row `i` gets `data[i+1].score / data[i].score`; the last
row gets none. -/
noncomputable def addRatios : List (ScoredRow ℝ) → List (ScoredRow ℝ × Option ℝ)
  | [] => []
  | [a] => [(a, none)]
  | a :: b :: t => (a, some (b.score / a.score)) :: addRatios (b :: t)

/-- `compute_scores` (utils.rs).  The loop bound `0..data.len() - 1` is a
`usize` subtraction: on an empty vector it underflows (debug) or wraps and
indexes out of bounds (release), so the call panics; the model returns an
error in exactly that case. -/
noncomputable def compute_scores (nn : PredRow ℝ → ℝ)
    (data : List (String × PredRow ℝ)) :
    Except String (List (ScoredRow ℝ × Option ℝ)) :=
  if data.isEmpty then Except.error "usize underflow in 0..data.len() - 1"
  else Except.ok (addRatios (computeScoresRun nn data))

/-- Smallest element of a list of reals (the `fold(f64::INFINITY, f64::min)`
of `normalize_column` evaluates to this when the list is non-empty). -/
noncomputable def listMin : List ℝ → ℝ
  | [] => 0
  | x :: t => t.foldr min x

/-- Largest element of a list of reals (the
`fold(f64::NEG_INFINITY, f64::max)` of `normalize_column`). -/
noncomputable def listMax : List ℝ → ℝ
  | [] => 0
  | x :: t => t.foldr max x

/-- `normalize_column` (utils.rs) on one column, abstracted over the column
accessor and setter: a (nearly) constant column is zeroed, otherwise the
column is min-max scaled to [0,1]. -/
noncomputable def normalize_column (data : List (String × PredRow ℝ))
    (get : PredRow ℝ → ℝ) (set : PredRow ℝ → ℝ → PredRow ℝ) :
    List (String × PredRow ℝ) :=
  if |listMax (data.map (fun p => get p.2)) - listMin (data.map (fun p => get p.2))|
      < 1 / 10 ^ 12 then
    data.map (fun p => (p.1, set p.2 0))
  else
    data.map (fun p => (p.1,
      set p.2 ((get p.2 - listMin (data.map (fun p2 => get p2.2)))
        / (listMax (data.map (fun p2 => get p2.2))
          - listMin (data.map (fun p2 => get p2.2))))))

/-- The qualifying predicate rows of `KG::stat_anal_predicates` (store.rs):
the type-membership predicate is excluded, then rows whose uniqueness is
1.0 within 1e-19 are discarded. -/
def filteredRows (rows : List (String × BaseRow K)) : List (String × BaseRow K) :=
  (rows.filter
    (fun p => p.1 ≠ "<http://www.w3.org/1999/02/22-rdf-syntax-ns#type>")).filter
    (fun p => |p.2.uniqueness - 1| > 1 / 10 ^ 19)

/-- The rows handed to `compute_scores` by `stat_anal_predicates`: the
qualifying rows with the "edge_rank" key attached
(`edge_rank.get(pred).unwrap_or(&0.0)`) and the entropy and quality columns
min-max normalized. -/
noncomputable def statAnalRows (rows : List (String × BaseRow ℝ))
    (er : List (String × ℝ)) : List (String × PredRow ℝ) :=
  normalize_column
    (normalize_column
      ((filteredRows rows).map
        (fun p => (p.1, p.2.withRank ((er.lookup p.1).getD 0))))
      (fun r => r.entropy) (fun r v => { r with entropy := v }))
    (fun r => r.quality) (fun r v => { r with quality := v })

/-- The recomputation path of `KG::stat_anal_predicates` (store.rs), with
the per-predicate query results supplied as `rows` and the edge-rank table
as an association list: return `None` if no qualifying predicate remains
after the uniqueness filter, otherwise run `compute_scores` on the prepared
rows (an `Except.error` models a panic, which never occurs here). -/
noncomputable def stat_anal_predicates (nn : PredRow ℝ → ℝ)
    (rows : List (String × BaseRow ℝ)) (er : List (String × ℝ)) :
    Except String (Option (List (ScoredRow ℝ × Option ℝ))) :=
  if (filteredRows rows).length = 0 then
    Except.ok none
  else
    match compute_scores nn (statAnalRows rows er) with
    | Except.ok out => Except.ok (some out)
    | Except.error e => Except.error e

/-- One table row of the predicate-analysis page (web_ui/server.rs): the
"score" and "keep" (classifier confidence) values read from the analyzer
output for one predicate. -/
structure SRow (K : Type) where
  name : String
  score : K
  keep : K
  deriving Repr, DecidableEq

/-- First pass over the rows (server.rs): collect the scores of the rows
reached while the running budget `thres` (starting at 60.0) is still
positive; the budget drops by every row's score, counted or not. -/
def passedScores : List (SRow K) → K → List K
  | [], _ => []
  | r :: rest, thres =>
    (if thres > 0 then [r.score] else []) ++ passedScores rest (thres - r.score)

/-- `mean_passed_score`: the passed scores' sum divided by their count. -/
def meanPassedScore (data : List (SRow K)) : K :=
  (passedScores data 60).sum / ((passedScores data 60).length : K)

/-- The second-pass keep/drop decision for one row given the running budget:
a row with classifier confidence > 0.5 is kept; otherwise, while the budget
is still positive the row is deleted iff the hybrid value
`keep + keep * score / mean` is < 0.5, and once the budget is exhausted the
row is deleted unconditionally. -/
def delFlag (mean thres : K) (r : SRow K) : Bool :=
  if r.keep > 1 / 2 then false
  else if thres > 0 then decide (r.keep + r.keep * r.score / mean < 1 / 2)
  else true

/-- Second pass (server.rs): pair every row with its delete decision,
walking the same budget, reset to 60.0. -/
def decisions (mean : K) : List (SRow K) → K → List (SRow K × Bool)
  | [], _ => []
  | r :: rest, thres =>
    (r, delFlag mean thres r) :: decisions mean rest (thres - r.score)

/-- The `preds_to_delete` contributions of one class's table (server.rs):
the rows whose decision came out as delete. -/
def preds_to_delete (data : List (SRow K)) : List (SRow K) :=
  ((decisions (meanPassedScore data) data 60).filter (fun p => p.2)).map
    (fun p => p.1)

/-- The Store assertions that `KG::fix_types` (store.rs) manipulates:
`types` holds the primary `?s a ?t` triples, `addl` the
`?s <http://schema.org/additionaltype> ?t` triples. -/
structure TypeState where
  types : List (String × String)
  addl : List (String × String)
  deriving Repr, DecidableEq

/-- The conflict query of `fix_types`
(`SELECT DISTINCT ?t1 ?t2 {?s a ?t1. ?s a ?t2. FILTER (?t1!=?t2)} LIMIT 1`),
modelled as the first matching binding in assertion order. -/
def findConflict (st : TypeState) : Option (String × String × String) :=
  st.types.findSome? (fun p =>
    (st.types.find? (fun q => decide (q.1 = p.1 ∧ ¬ q.2 = p.2))).map
      (fun q => (p.1, p.2, q.2)))

/-- The rewrite update of `fix_types`
(`DELETE {?s a skip} INSERT {?s additionaltype skip} WHERE {?s a skip. ?s a keep}`):
every subject asserted with both types loses the `skip` assertion and gains
it as an additional type. -/
def resolvePair (keep skip : String) (st : TypeState) : TypeState :=
  { types := st.types.filter (fun p => ¬ (p.2 = skip ∧ (p.1, keep) ∈ st.types)),
    addl := st.addl ++
      (st.types.filter (fun p => p.2 = skip ∧ (p.1, keep) ∈ st.types)).map
        (fun p => (p.1, skip)) }

/-- The `loop` of `KG::fix_types`: query one conflicting pair; if none
remains, stop; otherwise keep the type with the strictly higher score and
demote the other, then repeat (with explicit fuel; `st.types.length`
iterations always suffice, see `fix_types_fixpoint`). -/
def fix_types (scores : String → K) : ℕ → TypeState → TypeState
  | 0, st => st
  | fuel + 1, st =>
    match findConflict st with
    | none => st
    | some (_, t1, t2) =>
      fix_types scores fuel
        (if scores t1 > scores t2 then resolvePair t1 t2 st
          else resolvePair t2 t1 st)

/-- The cache-decision prologue of `KG::stat_anal_predicates` (store.rs):
`data` starts empty and `recalculate` true; a loaded cache entry is adopted
(and recalculation skipped) only when its stored version equals the current
history line count; a failed load leaves `recalculate` true. -/
def statAnalCache {A : Type} (load : Except Unit (ℕ × A)) (cur : ℕ) :
    Bool × Option A :=
  match load with
  | Except.ok (v, d) => if v = cur then (false, some d) else (true, none)
  | Except.error _ => (true, none)

/-- The cache-decision prologue of `KG::calculate_class_relations_graph`
(store.rs): `recalculate` starts false and is set on a version mismatch or
a failed load; the adjacency list is adopted only on a version match. -/
def relationsCache {A : Type} (load : Except Unit (ℕ × A)) (cur : ℕ) :
    Bool × Option A :=
  match load with
  | Except.ok (v, d) => if v = cur then (false, some d) else (true, none)
  | Except.error _ => (true, none)

/-- What the surrounding function then computes: the cached payload when
`recalculate` came out false, the freshly recomputed payload otherwise. -/
def useCacheOr {A : Type} (c : Bool × Option A) (recompute : A) : A :=
  match c with
  | (false, some d) => d
  | _ => recompute

section Theorems

theorem outSum_forwardPass (g : KGraph K) (n : String) :
    outSum (forwardPass g) n = outSum g n := by
  unfold outSum outEdges forwardPass
  induction g.edges with
  | nil => rfl
  | cons e es ih =>
    by_cases h : e.src = n <;>
      simp_all [List.filter_cons, h]

theorem inSum_forwardPass (g : KGraph K) (n : String) :
    inSum (forwardPass g) n = inSum g n := by
  unfold inSum inEdges forwardPass
  induction g.edges with
  | nil => rfl
  | cons e es ih =>
    by_cases h : e.dst = n <;>
      simp_all [List.filter_cons, h]

theorem outEdges_backwardPass (g : KGraph K) (n : String) :
    outEdges (backwardPass g) n
      = (outEdges g n).map (fun e =>
          { e with bprob := some (e.cnt / inSum g e.dst) }) := by
  unfold outEdges backwardPass
  induction g.edges with
  | nil => rfl
  | cons e es ih =>
    by_cases h : e.src = n <;>
      simp_all [List.filter_cons, h]

theorem inEdges_backwardPass (g : KGraph K) (n : String) :
    inEdges (backwardPass g) n
      = (inEdges g n).map (fun e =>
          { e with bprob := some (e.cnt / inSum g e.dst) }) := by
  unfold inEdges backwardPass
  induction g.edges with
  | nil => rfl
  | cons e es ih =>
    by_cases h : e.dst = n <;>
      simp_all [List.filter_cons, h]

theorem outEdges_forwardPass (g : KGraph K) (n : String) :
    outEdges (forwardPass g) n
      = (outEdges g n).map (fun e =>
          { e with fprob := some (e.cnt / outSum g e.src), bprob := none }) := by
  unfold outEdges forwardPass
  induction g.edges with
  | nil => rfl
  | cons e es ih =>
    by_cases h : e.src = n <;>
      simp_all [List.filter_cons, h]

theorem inEdges_forwardPass (g : KGraph K) (n : String) :
    inEdges (forwardPass g) n
      = (inEdges g n).map (fun e =>
          { e with fprob := some (e.cnt / outSum g e.src), bprob := none }) := by
  unfold inEdges forwardPass
  induction g.edges with
  | nil => rfl
  | cons e es ih =>
    by_cases h : e.dst = n <;>
      simp_all [List.filter_cons, h]

theorem src_mem_outEdges (g : KGraph K) (n : String) (e : KEdge K)
    (he : e ∈ outEdges g n) : e.src = n := by
  unfold outEdges at he
  exact of_decide_eq_true (List.mem_filter.mp he).2

theorem dst_mem_inEdges (g : KGraph K) (n : String) (e : KEdge K)
    (he : e ∈ inEdges g n) : e.dst = n := by
  unfold inEdges at he
  exact of_decide_eq_true (List.mem_filter.mp he).2

theorem cnt_pos_outSum_pos (g : KGraph K) (n : String)
    (hpos : ∀ e ∈ g.edges, 0 < e.cnt) (hne : outEdges g n ≠ []) :
    0 < outSum g n := by
  unfold outSum
  rcases List.exists_mem_of_ne_nil _ hne with ⟨e, he⟩
  have hmem : ∀ x ∈ (outEdges g n).map (fun e => e.cnt), 0 < x := by
    intro x hx
    rcases List.mem_map.mp hx with ⟨e', he', rfl⟩
    exact hpos e' (List.mem_of_mem_filter he')
  have h1 : e.cnt ∈ (outEdges g n).map (fun e => e.cnt) :=
    List.mem_map.mpr ⟨e, he, rfl⟩
  calc (0 : K) < e.cnt := hmem _ h1
    _ ≤ _ := List.single_le_sum (fun x hx => le_of_lt (hmem x hx)) _ h1

theorem cnt_pos_inSum_pos (g : KGraph K) (n : String)
    (hpos : ∀ e ∈ g.edges, 0 < e.cnt) (hne : inEdges g n ≠ []) :
    0 < inSum g n := by
  unfold inSum
  rcases List.exists_mem_of_ne_nil _ hne with ⟨e, he⟩
  have hmem : ∀ x ∈ (inEdges g n).map (fun e => e.cnt), 0 < x := by
    intro x hx
    rcases List.mem_map.mp hx with ⟨e', he', rfl⟩
    exact hpos e' (List.mem_of_mem_filter he')
  have h1 : e.cnt ∈ (inEdges g n).map (fun e => e.cnt) :=
    List.mem_map.mpr ⟨e, he, rfl⟩
  calc (0 : K) < e.cnt := hmem _ h1
    _ ≤ _ := List.single_le_sum (fun x hx => le_of_lt (hmem x hx)) _ h1

/-- C3: after `calculate_probabilities_for_graph` on a graph with positive raw
counts, the forward probabilities on each node's outgoing edges sum to 1
(hence to 1 within the 1e-9 tolerance), symmetrically for incoming/backward
probabilities, and a node with no edges in a direction has no probability
attached in that direction (it still has no edges there). -/
theorem calculate_probabilities_sums (g : KGraph K)
    (hpos : ∀ e ∈ g.edges, 0 < e.cnt) (n : String) :
    (outEdges g n ≠ [] →
        ((outEdges (calculate_probabilities_for_graph g) n).map
            (fun e => e.fprob.getD 0)).sum = 1 ∧
        |((outEdges (calculate_probabilities_for_graph g) n).map
            (fun e => e.fprob.getD 0)).sum - 1| ≤ 1 / 1000000000) ∧
    (inEdges g n ≠ [] →
        ((inEdges (calculate_probabilities_for_graph g) n).map
            (fun e => e.bprob.getD 0)).sum = 1 ∧
        |((inEdges (calculate_probabilities_for_graph g) n).map
            (fun e => e.bprob.getD 0)).sum - 1| ≤ 1 / 1000000000) ∧
    (outEdges g n = [] → outEdges (calculate_probabilities_for_graph g) n = []) ∧
    (inEdges g n = [] → inEdges (calculate_probabilities_for_graph g) n = []) := by
  have houtF : ((outEdges (calculate_probabilities_for_graph g) n).map
      (fun e => e.fprob.getD 0)).sum
      = ((outEdges g n).map (fun e => e.cnt / outSum g e.src)).sum := by
    unfold calculate_probabilities_for_graph
    rw [outEdges_backwardPass, outEdges_forwardPass, List.map_map, List.map_map]
    exact congrArg List.sum (List.map_congr_left (fun e _ => rfl))
  have hinB : ((inEdges (calculate_probabilities_for_graph g) n).map
      (fun e => e.bprob.getD 0)).sum
      = ((inEdges g n).map (fun e => e.cnt / inSum g e.dst)).sum := by
    unfold calculate_probabilities_for_graph
    rw [inEdges_backwardPass, inEdges_forwardPass, List.map_map, List.map_map]
    refine congrArg List.sum (List.map_congr_left (fun e _ => ?_))
    show e.cnt / inSum (forwardPass g) e.dst = e.cnt / inSum g e.dst
    rw [inSum_forwardPass]
  refine ⟨?_, ?_, ?_, ?_⟩
  · intro hne
    have hsum : ((outEdges (calculate_probabilities_for_graph g) n).map
        (fun e => e.fprob.getD 0)).sum = 1 := by
      rw [houtF]
      have hmap : (outEdges g n).map (fun e => e.cnt / outSum g e.src)
          = (outEdges g n).map (fun e => e.cnt * (outSum g n)⁻¹) := by
        apply List.map_congr_left
        intro e he
        rw [src_mem_outEdges g n e he, div_eq_mul_inv]
      rw [hmap, List.sum_map_mul_right]
      exact mul_inv_cancel₀ (ne_of_gt (cnt_pos_outSum_pos g n hpos hne))
    exact ⟨hsum, by rw [hsum]; simp⟩
  · intro hne
    have hsum : ((inEdges (calculate_probabilities_for_graph g) n).map
        (fun e => e.bprob.getD 0)).sum = 1 := by
      rw [hinB]
      have hmap : (inEdges g n).map (fun e => e.cnt / inSum g e.dst)
          = (inEdges g n).map (fun e => e.cnt * (inSum g n)⁻¹) := by
        apply List.map_congr_left
        intro e he
        rw [dst_mem_inEdges g n e he, div_eq_mul_inv]
      rw [hmap, List.sum_map_mul_right]
      exact mul_inv_cancel₀ (ne_of_gt (cnt_pos_inSum_pos g n hpos hne))
    exact ⟨hsum, by rw [hsum]; simp⟩
  · intro h0
    unfold calculate_probabilities_for_graph
    rw [outEdges_backwardPass, outEdges_forwardPass, h0]
    rfl
  · intro h0
    unfold calculate_probabilities_for_graph
    rw [inEdges_backwardPass, inEdges_forwardPass, h0]
    rfl

/-- Witness for C3 at a concrete rational graph: a three-node graph with two
outgoing edges from "A" of counts 1 and 3. -/
theorem calculate_probabilities_sums_witness :
    (∀ e ∈ c3wGraph.edges, 0 < e.cnt) ∧
    (outEdges c3wGraph "A" ≠ [] →
        ((outEdges (calculate_probabilities_for_graph c3wGraph) "A").map
            (fun e => e.fprob.getD 0)).sum = 1 ∧
        |((outEdges (calculate_probabilities_for_graph c3wGraph) "A").map
            (fun e => e.fprob.getD 0)).sum - 1| ≤ 1 / 1000000000) := by
  refine ⟨by decide, (calculate_probabilities_sums c3wGraph (by decide) "A").1⟩

theorem bump_apply_ne (f : String → K) (x y : String) (c : K) (h : y ≠ x) :
    bump f x c y = f y := by
  simp [bump, h]

theorem bump_apply_self (f : String → K) (x : String) (c : K) :
    bump f x c x = f x + c := by
  simp [bump]

theorem bump2_apply_ne (f : String → String → K) (x p y : String) (c : K)
    (h : y ≠ x) : bump2 f x p c y = f y := by
  funext q
  simp [bump2, h]

theorem bump2_apply_self (f : String → String → K) (x p : String) (c : K) :
    bump2 f x p c x = bump (f x) p c := by
  funext q
  simp [bump2, bump]

theorem sum_map_congr_mem (l : List String) (f h : String → K)
    (hfg : ∀ y ∈ l, f y = h y) : (l.map f).sum = (l.map h).sum := by
  rw [List.map_congr_left hfg]

theorem sum_map_bump_mem (l : List String) (hnd : l.Nodup) (f : String → K)
    (x : String) (c : K) (hx : x ∈ l) :
    (l.map (bump f x c)).sum = (l.map f).sum + c := by
  induction l with
  | nil => cases hx
  | cons y t ih =>
    by_cases hxy : x = y
    · subst hxy
      have h1 : x ∉ t := (List.nodup_cons.mp hnd).1
      have hnt : t.map (bump f x c) = t.map f := by
        apply List.map_congr_left
        intro z hz
        exact bump_apply_ne f x z c (fun hzx => h1 (hzx ▸ hz))
      simp only [List.map_cons, List.sum_cons, bump_apply_self, hnt]
      ring
    · have hxt : x ∈ t := by
        rcases List.mem_cons.mp hx with h | h
        · exact absurd h hxy
        · exact h
      have hyne : y ≠ x := fun h => hxy h.symm
      simp only [List.map_cons, List.sum_cons, bump_apply_ne f x y c hyne,
        ih (List.nodup_cons.mp hnd).2 hxt]
      ring

theorem sum_map_div {A : Type} (l : List A) (f : A → K) (c : K) :
    (l.map (fun a => f a / c)).sum = (l.map f).sum / c := by
  induction l with
  | nil => simp
  | cons a t ih => simp [ih, add_div]

theorem prSum_bump (g : KGraph K) (st : RWState K) (x : String) (c : K)
    (hnd : g.nodes.Nodup) (hx : x ∈ g.nodes) (f : String → String → K)
    (t u : K) :
    prSum g ⟨bump st.pr x c, f, t, u⟩ = prSum g st + c := by
  unfold prSum
  exact sum_map_bump_mem g.nodes hnd st.pr x c hx

theorem erSum_pr_indep (g : KGraph K) (f : String → K)
    (er' : String → String → K) (t u t' u' : K) :
    erSum g ⟨f, er', t, u⟩ = erSum g ⟨fun _ => 0, er', t', u'⟩ := rfl

theorem erSum_bump2 (g : KGraph K) (st : RWState K) (x p : String) (c : K)
    (hnd : g.nodes.Nodup) (hx : x ∈ g.nodes) (hp : p ∈ gpreds g)
    (f : String → K) (t u : K) :
    erSum g ⟨f, bump2 st.er x p c, t, u⟩ = erSum g st + c := by
  unfold erSum
  have hpt : ∀ n, ((gpreds g).map (bump2 st.er x p c n)).sum
      = bump (fun m => ((gpreds g).map (st.er m)).sum) x c n := by
    intro n
    by_cases hn : n = x
    · subst hn
      rw [bump2_apply_self, bump_apply_self]
      exact sum_map_bump_mem (gpreds g) (List.nodup_dedup _) (st.er n) p c hp
    · rw [bump2_apply_ne st.er x p n c hn, bump_apply_ne _ x n c hn]
  calc ((g.nodes.map (fun n => ((gpreds g).map (bump2 st.er x p c n)).sum)).sum)
      = (g.nodes.map (bump (fun m => ((gpreds g).map (st.er m)).sum) x c)).sum := by
        exact sum_map_congr_mem g.nodes _ _ (fun n _ => hpt n)
    _ = _ := sum_map_bump_mem g.nodes hnd _ x c hx

theorem runSteps_nil (g : KGraph K) (d : WDir) (cur : String) (st : RWState K) :
    runSteps g d [] cur st = st := rfl

theorem runSteps_cons_none (g : KGraph K) (d : WDir) (i : ℕ) (rest : List ℕ)
    (cur : String) (st : RWState K) (hg : g.edges.get? i = none) :
    runSteps g d (i :: rest) cur st = st := by
  simp only [runSteps]
  rw [hg]

theorem runSteps_cons_some (g : KGraph K) (d : WDir) (i : ℕ) (rest : List ℕ)
    (cur : String) (st : RWState K) (e : KEdge K) (hg : g.edges.get? i = some e) :
    runSteps g d (i :: rest) cur st =
      if dirSrc d e = cur then
        if dirDst d e = "Literal" then
          { st with pr := bump st.pr cur (e.fprob.getD 0),
                    er := bump2 st.er cur e.pred 1,
                    ertotal := st.ertotal + 1 }
        else
          runSteps g d rest (dirDst d e)
            { st with pr := bump st.pr (dirDst d e) 1,
                      er := bump2 st.er cur e.pred 1,
                      total := st.total + 1,
                      ertotal := st.ertotal + 1 }
      else st := by
  simp only [runSteps]
  rw [hg]

theorem runSteps_mass (g : KGraph K) (d : WDir)
    (hnd : g.nodes.Nodup)
    (hwf : ∀ e ∈ g.edges, e.src ∈ g.nodes ∧ e.dst ∈ g.nodes)
    (hprob : ∀ e ∈ g.edges, 0 ≤ e.fprob.getD 0) :
    ∀ (steps : List ℕ) (cur : String) (st : RWState K), cur ∈ g.nodes →
      prSum g st - st.total
          ≤ prSum g (runSteps g d steps cur st) - (runSteps g d steps cur st).total ∧
      erSum g (runSteps g d steps cur st) - (runSteps g d steps cur st).ertotal
          = erSum g st - st.ertotal ∧
      st.total ≤ (runSteps g d steps cur st).total := by
  intro steps
  induction steps with
  | nil =>
    intro cur st _
    rw [runSteps_nil]
    exact ⟨le_refl _, rfl, le_refl _⟩
  | cons i rest ih =>
    intro cur st hcur
    cases hg : g.edges.get? i with
    | none =>
      rw [runSteps_cons_none g d i rest cur st hg]
      exact ⟨le_refl _, rfl, le_refl _⟩
    | some e =>
      rw [runSteps_cons_some g d i rest cur st e hg]
      have hmem : e ∈ g.edges := List.get?_mem hg
      have hpredmem : e.pred ∈ gpreds g := by
        unfold gpreds
        exact (List.mem_dedup).mpr (List.mem_map.mpr ⟨e, hmem, rfl⟩)
      by_cases hsrc : dirSrc d e = cur
      · rw [if_pos hsrc]
        have hdst : dirDst d e ∈ g.nodes := by
          cases d
          · exact (hwf e hmem).2
          · exact (hwf e hmem).1
        by_cases hlit : dirDst d e = "Literal"
        · rw [if_pos hlit]
          refine ⟨?_, ?_, le_refl _⟩
          · show prSum g st - st.total ≤
              prSum g ⟨bump st.pr cur (e.fprob.getD 0),
                bump2 st.er cur e.pred 1, st.total, st.ertotal + 1⟩ - st.total
            rw [prSum_bump g st cur (e.fprob.getD 0) hnd hcur]
            have := hprob e hmem
            linarith
          · show erSum g ⟨bump st.pr cur (e.fprob.getD 0),
                bump2 st.er cur e.pred 1, st.total, st.ertotal + 1⟩
                - (st.ertotal + 1) = erSum g st - st.ertotal
            rw [erSum_bump2 g st cur e.pred 1 hnd hcur hpredmem]
            ring
        · rw [if_neg hlit]
          have hrec := ih (dirDst d e)
            ⟨bump st.pr (dirDst d e) 1, bump2 st.er cur e.pred 1,
              st.total + 1, st.ertotal + 1⟩ hdst
          have hpr : prSum g (⟨bump st.pr (dirDst d e) 1,
              bump2 st.er cur e.pred 1, st.total + 1, st.ertotal + 1⟩ : RWState K)
              = prSum g st + 1 :=
            prSum_bump g st (dirDst d e) 1 hnd hdst _ _ _
          have her : erSum g (⟨bump st.pr (dirDst d e) 1,
              bump2 st.er cur e.pred 1, st.total + 1, st.ertotal + 1⟩ : RWState K)
              = erSum g st + 1 :=
            erSum_bump2 g st cur e.pred 1 hnd hcur hpredmem _ _ _
          refine ⟨?_, ?_, ?_⟩
          · refine le_trans ?_ hrec.1
            rw [hpr]
            show prSum g st - st.total ≤ prSum g st + 1 - (st.total + 1)
            linarith
          · rw [hrec.2.1, her]
            show erSum g st + 1 - (st.ertotal + 1) = erSum g st - st.ertotal
            ring
          · refine le_trans ?_ hrec.2.2
            show st.total ≤ st.total + 1
            linarith
      · rw [if_neg hsrc]
        exact ⟨le_refl _, rfl, le_refl _⟩

theorem runWalk_eq (g : KGraph K) (d : WDir) (w : RWalk) (st : RWState K) :
    runWalk g d w st = runSteps g d w.steps w.start
      ⟨bump st.pr w.start 1, st.er, st.total + 1, st.ertotal⟩ := rfl

theorem prSum_initState (g : KGraph K) : prSum g (initState K) = 0 := by
  simp [prSum, initState]

theorem erSum_initState (g : KGraph K) : erSum g (initState K) = 0 := by
  simp [erSum, initState]

theorem runWalk_mass (g : KGraph K) (d : WDir)
    (hnd : g.nodes.Nodup)
    (hwf : ∀ e ∈ g.edges, e.src ∈ g.nodes ∧ e.dst ∈ g.nodes)
    (hprob : ∀ e ∈ g.edges, 0 ≤ e.fprob.getD 0)
    (w : RWalk) (st : RWState K) (hstart : w.start ∈ g.nodes) :
    prSum g st - st.total
        ≤ prSum g (runWalk g d w st) - (runWalk g d w st).total ∧
    erSum g (runWalk g d w st) - (runWalk g d w st).ertotal
        = erSum g st - st.ertotal ∧
    st.total + 1 ≤ (runWalk g d w st).total := by
  rw [runWalk_eq]
  have h := runSteps_mass g d hnd hwf hprob w.steps w.start
    ⟨bump st.pr w.start 1, st.er, st.total + 1, st.ertotal⟩ hstart
  have hpr : prSum g (⟨bump st.pr w.start 1, st.er, st.total + 1, st.ertotal⟩ : RWState K)
      = prSum g st + 1 := prSum_bump g st w.start 1 hnd hstart _ _ _
  refine ⟨?_, ?_, ?_⟩
  · refine le_trans ?_ h.1
    rw [hpr]
    show prSum g st - st.total ≤ prSum g st + 1 - (st.total + 1)
    linarith
  · rw [h.2.1]
    rfl
  · exact h.2.2

theorem runWalks_mass (g : KGraph K) (d : WDir)
    (hnd : g.nodes.Nodup)
    (hwf : ∀ e ∈ g.edges, e.src ∈ g.nodes ∧ e.dst ∈ g.nodes)
    (hprob : ∀ e ∈ g.edges, 0 ≤ e.fprob.getD 0) :
    ∀ (outc : List RWalk) (st : RWState K), (∀ w ∈ outc, w.start ∈ g.nodes) →
      prSum g st - st.total
          ≤ prSum g (runWalks g d outc st) - (runWalks g d outc st).total ∧
      erSum g (runWalks g d outc st) - (runWalks g d outc st).ertotal
          = erSum g st - st.ertotal ∧
      st.total + (outc.length : K) ≤ (runWalks g d outc st).total := by
  intro outc
  induction outc with
  | nil =>
    intro st _
    refine ⟨le_refl _, rfl, ?_⟩
    show st.total + (((0 : ℕ) : K)) ≤ st.total
    simp
  | cons w ws ih =>
    intro st hstart
    have heq : runWalks g d (w :: ws) st = runWalks g d ws (runWalk g d w st) := rfl
    rw [heq]
    have h1 := runWalk_mass g d hnd hwf hprob w st (hstart w (List.mem_cons_self w ws))
    have h2 := ih (runWalk g d w st) (fun v hv => hstart v (List.mem_cons_of_mem w hv))
    refine ⟨le_trans h1.1 h2.1, ?_, ?_⟩
    · rw [h2.2.1, h1.2.1]
    · calc st.total + ((w :: ws).length : K)
          = st.total + 1 + (ws.length : K) := by
            rw [List.length_cons]
            push_cast
            ring
        _ ≤ (runWalk g d w st).total + (ws.length : K) := by
            have := h1.2.2
            linarith
        _ ≤ _ := h2.2.2

theorem prSum_normalized (g : KGraph K) (st : RWState K) :
    prSum g ⟨fun n => st.pr n / st.total, fun c p => st.er c p / st.ertotal,
        st.total, st.ertotal⟩ = prSum g st / st.total := by
  unfold prSum
  exact sum_map_div g.nodes st.pr st.total

theorem erSum_normalized (g : KGraph K) (st : RWState K) :
    erSum g ⟨fun n => st.pr n / st.total, fun c p => st.er c p / st.ertotal,
        st.total, st.ertotal⟩ = erSum g st / st.ertotal := by
  unfold erSum
  have h1 : ∀ n ∈ g.nodes, ((gpreds g).map (fun p => st.er n p / st.ertotal)).sum
      = (fun m => ((gpreds g).map (st.er m)).sum / st.ertotal) n := by
    intro n _
    exact sum_map_div (gpreds g) (st.er n) st.ertotal
  calc (g.nodes.map (fun n => ((gpreds g).map (fun p => st.er n p / st.ertotal)).sum)).sum
      = (g.nodes.map (fun m => ((gpreds g).map (st.er m)).sum / st.ertotal)).sum :=
        sum_map_congr_mem g.nodes _ _ h1
    _ = _ := sum_map_div g.nodes _ st.ertotal

theorem page_rank_eq (g : KGraph K) (d : WDir) (outc : List RWalk) :
    page_rank g d outc
      = ⟨fun n => (runWalks g d outc (initState K)).pr n / (runWalks g d outc (initState K)).total,
          fun c p => (runWalks g d outc (initState K)).er c p / (runWalks g d outc (initState K)).ertotal,
          (runWalks g d outc (initState K)).total,
          (runWalks g d outc (initState K)).ertotal⟩ := rfl

/-- C2 (amended): after normalization the edge-rank mass over all
(class, predicate) pairs is at most 1, while the page-rank mass over all
classes is at least 1 (each hit of the Literal sink adds the edge's forward
probability to `page_rank` without incrementing `total`, so the claimed
upper bound of 1 fails in general and the mass is bounded below by 1
instead). -/
theorem page_rank_mass (g : KGraph K) (d : WDir) (outc : List RWalk)
    (hnd : g.nodes.Nodup)
    (hwf : ∀ e ∈ g.edges, e.src ∈ g.nodes ∧ e.dst ∈ g.nodes)
    (hprob : ∀ e ∈ g.edges, 0 ≤ e.fprob.getD 0)
    (hstart : ∀ w ∈ outc, w.start ∈ g.nodes) (hne : outc ≠ []) :
    erSum g (page_rank g d outc) ≤ 1 ∧ 1 ≤ prSum g (page_rank g d outc) := by
  have h := runWalks_mass g d hnd hwf hprob outc (initState K) hstart
  rw [prSum_initState, erSum_initState] at h
  have hinit_t : (initState K).total = 0 := rfl
  have hinit_e : (initState K).ertotal = 0 := rfl
  rw [hinit_t, hinit_e] at h
  have hlen : (1 : K) ≤ (outc.length : K) := by
    have : 1 ≤ outc.length := List.length_pos.mpr hne
    exact_mod_cast this
  have htot : (1 : K) ≤ (runWalks g d outc (initState K)).total := by
    have := h.2.2
    linarith
  have htpos : (0 : K) < (runWalks g d outc (initState K)).total := lt_of_lt_of_le one_pos htot
  rw [page_rank_eq]
  constructor
  · rw [erSum_normalized]
    have her : erSum g (runWalks g d outc (initState K))
        = (runWalks g d outc (initState K)).ertotal := by
      have := h.2.1
      linarith
    rw [her]
    by_cases h0 : (runWalks g d outc (initState K)).ertotal = 0
    · rw [h0, div_zero]
      exact zero_le_one
    · rw [div_self h0]
  · rw [prSum_normalized]
    have hpr : (runWalks g d outc (initState K)).total
        ≤ prSum g (runWalks g d outc (initState K)) := by
      have := h.1
      linarith
    exact (one_le_div htpos).mpr hpr

/-- Witness for the amended C2 theorem at a concrete rational graph and a
single-walk outcome. -/
theorem page_rank_mass_witness :
    (cexGraph.nodes.Nodup ∧
      (∀ e ∈ cexGraph.edges, e.src ∈ cexGraph.nodes ∧ e.dst ∈ cexGraph.nodes) ∧
      (∀ e ∈ cexGraph.edges, 0 ≤ e.fprob.getD 0) ∧
      (∀ w ∈ [(⟨"A", []⟩ : RWalk)], w.start ∈ cexGraph.nodes) ∧
      [(⟨"A", []⟩ : RWalk)] ≠ []) ∧
    (erSum cexGraph (page_rank cexGraph WDir.out [⟨"A", []⟩]) ≤ 1 ∧
      1 ≤ prSum cexGraph (page_rank cexGraph WDir.out [⟨"A", []⟩])) := by
  refine ⟨⟨by decide, by decide, by decide, by decide, by decide⟩, ?_⟩
  exact page_rank_mass cexGraph WDir.out [⟨"A", []⟩]
    (by decide) (by decide) (by decide) (by decide) (by decide)

theorem cex_runWalk (st : RWState ℚ) :
    runWalk cexGraph WDir.out ⟨"A", [0]⟩ st
      = ⟨bump (bump st.pr "A" 1) "A" 1, bump2 st.er "A" "p" 1,
          st.total + 1, st.ertotal + 1⟩ := by
  rw [runWalk_eq]
  rw [runSteps_cons_some cexGraph WDir.out 0 [] "A" _
    ⟨"A", "Literal", "p", 1, some 1, none⟩ rfl]
  norm_num [dirSrc, dirDst]

theorem cex_prSum (f : String → ℚ) (er' : String → String → ℚ) (t u : ℚ) :
    prSum cexGraph ⟨f, er', t, u⟩ = f "A" + f "Literal" := by
  simp [prSum, cexGraph]

theorem cex_runWalks (n : ℕ) : ∀ st : RWState ℚ,
    prSum cexGraph (runWalks cexGraph WDir.out (List.replicate n ⟨"A", [0]⟩) st)
      = prSum cexGraph st + 2 * n ∧
    (runWalks cexGraph WDir.out (List.replicate n ⟨"A", [0]⟩) st).total
      = st.total + n := by
  induction n with
  | zero =>
    intro st
    simp [runWalks]
  | succ m ih =>
    intro st
    have heq : runWalks cexGraph WDir.out (List.replicate (m + 1) ⟨"A", [0]⟩) st
        = runWalks cexGraph WDir.out (List.replicate m ⟨"A", [0]⟩)
            (runWalk cexGraph WDir.out ⟨"A", [0]⟩ st) := by
      rw [List.replicate_succ]
      rfl
    rw [heq, cex_runWalk st]
    have h := ih ⟨bump (bump st.pr "A" 1) "A" 1, bump2 st.er "A" "p" 1,
      st.total + 1, st.ertotal + 1⟩
    have hA : (bump (bump st.pr "A" 1) "A" 1) "A" = st.pr "A" + 1 + 1 := by
      rw [bump_apply_self, bump_apply_self]
    have hL : (bump (bump st.pr "A" 1) "A" 1) "Literal" = st.pr "Literal" := by
      rw [bump_apply_ne _ _ _ _ (by decide), bump_apply_ne _ _ _ _ (by decide)]
    constructor
    · rw [h.1, cex_prSum, hA, hL]
      have hst : prSum cexGraph st = st.pr "A" + st.pr "Literal" := by
        have := cex_prSum st.pr st.er st.total st.ertotal
        calc prSum cexGraph st = prSum cexGraph ⟨st.pr, st.er, st.total, st.ertotal⟩ := rfl
          _ = _ := this
      rw [hst]
      push_cast
      ring
    · rw [h.2]
      show st.total + 1 + (m : ℚ) = st.total + ((m : ℕ) + 1 : ℕ)
      push_cast
      ring

/-- Counterexample to C2 as stated: on a one-class graph whose single
predicate always lands in the Literal sink, the 10000-walk outcome that
always starts at "A" and follows that edge yields a normalized page-rank
mass of 2, refuting "sum of pageRank over all classes is <= 1 for every
outcome of the random source". -/
theorem page_rank_sum_gt_one :
    ¬ (prSum cexGraph (page_rank cexGraph WDir.out cexOutcome) ≤ 1) := by
  have h := cex_runWalks 10000 (initState ℚ)
  rw [prSum_initState] at h
  have hinit_t : (initState ℚ).total = 0 := rfl
  rw [hinit_t] at h
  have hval : prSum cexGraph (page_rank cexGraph WDir.out cexOutcome) = 2 := by
    rw [page_rank_eq, prSum_normalized]
    show prSum cexGraph (runWalks cexGraph WDir.out cexOutcome (initState ℚ))
        / (runWalks cexGraph WDir.out cexOutcome (initState ℚ)).total = 2
    have h1 : prSum cexGraph (runWalks cexGraph WDir.out cexOutcome (initState ℚ))
        = 2 * 10000 := by
      rw [show cexOutcome = List.replicate 10000 ⟨"A", [0]⟩ from rfl, h.1]
      norm_num
    have h2 : (runWalks cexGraph WDir.out cexOutcome (initState ℚ)).total = 10000 := by
      rw [show cexOutcome = List.replicate 10000 ⟨"A", [0]⟩ from rfl, h.2]
      norm_num
    rw [h1, h2]
    norm_num
  rw [hval]
  norm_num

theorem reachN_zero (g : KGraph K) (a c : String) : reachN g a 0 c ↔ c = a :=
  Iff.rfl

theorem reachN_succ (g : KGraph K) (a c : String) (n : ℕ) :
    reachN g a (n + 1) c ↔ ∃ b, reachN g a n b ∧ stepRel g b c :=
  Iff.rfl

theorem reachN_succ_head (g : KGraph K) (a c : String) :
    ∀ m, reachN g a (m + 1) c ↔ ∃ w, stepRel g a w ∧ reachN g w m c := by
  intro m
  induction m generalizing c with
  | zero =>
    constructor
    · rintro ⟨b, hb, hst⟩
      rw [reachN_zero] at hb
      exact ⟨c, hb ▸ hst, rfl⟩
    · rintro ⟨w, hst, hw⟩
      rw [reachN_zero] at hw
      exact ⟨a, rfl, hw ▸ hst⟩
  | succ m ih =>
    constructor
    · rintro ⟨b, hb, hst⟩
      rcases (ih b).mp hb with ⟨w, hw, hwb⟩
      exact ⟨w, hw, b, hwb, hst⟩
    · rintro ⟨w, hw, b, hwb, hst⟩
      exact ⟨b, (ih b).mpr ⟨w, hw, hwb⟩, hst⟩

theorem stepRel_ne_literal (g : KGraph K) (a b : String) (h : stepRel g a b) :
    b ≠ "Literal" := by
  rcases h with ⟨e, _, _, _, hne⟩
  exact hne

theorem stepRel_mem_nodes (g : KGraph K) (a b : String)
    (hwf : ∀ e ∈ g.edges, e.src ∈ g.nodes ∧ e.dst ∈ g.nodes)
    (h : stepRel g a b) : b ∈ g.nodes := by
  rcases h with ⟨e, he, _, hdst, _⟩
  exact hdst ▸ (hwf e he).2

theorem reachN_ne_literal (g : KGraph K) (root : String)
    (hroot : root ≠ "Literal") (n : ℕ) (c : String) (h : reachN g root n c) :
    c ≠ "Literal" := by
  cases n with
  | zero => rw [reachN_zero] at h; exact h ▸ hroot
  | succ m =>
    rcases h with ⟨b, _, hst⟩
    exact stepRel_ne_literal g b c hst

theorem reachN_mem_nodes (g : KGraph K) (root : String)
    (hwf : ∀ e ∈ g.edges, e.src ∈ g.nodes ∧ e.dst ∈ g.nodes)
    (hroot : root ∈ g.nodes) (n : ℕ) (c : String) (h : reachN g root n c) :
    c ∈ g.nodes := by
  cases n with
  | zero => rw [reachN_zero] at h; exact h ▸ hroot
  | succ m =>
    rcases h with ⟨b, _, hst⟩
    exact stepRel_mem_nodes g b c hwf hst

theorem exists_minReach (g : KGraph K) (a c : String) (n : ℕ)
    (h : reachN g a n c) : ∃ m, minReach g a c m := by
  classical
  have hex : ∃ m, reachN g a m c := ⟨n, h⟩
  exact ⟨Nat.find hex, Nat.find_spec hex, fun m hm => Nat.find_le hm⟩

theorem minReach_unique (g : KGraph K) (a c : String) (n n' : ℕ)
    (h : minReach g a c n) (h' : minReach g a c n') : n = n' :=
  le_antisymm (h.2 n' h'.1) (h'.2 n h.1)

theorem bfsPushes_mem (g : KGraph K) (ent : String) (depth : K)
    (w : String) (d' : K) :
    (w, d') ∈ bfsPushes g ent depth ↔ stepRel g ent w ∧ d' = depth + 1 := by
  unfold bfsPushes
  rw [List.mem_filterMap]
  constructor
  · rintro ⟨e, he, hf⟩
    by_cases hd : e.dst = "Literal"
    · rw [if_pos hd] at hf
      cases hf
    · rw [if_neg hd] at hf
      have h1 : e.dst = w := congrArg Prod.fst (Option.some.inj hf)
      have h2 : depth + 1 = d' := congrArg Prod.snd (Option.some.inj hf)
      exact ⟨⟨e, List.mem_of_mem_filter he,
        src_mem_outEdges g ent e he, h1, h1 ▸ hd⟩, h2.symm⟩
  · rintro ⟨⟨e, he, hsrc, hdst, hne⟩, rfl⟩
    refine ⟨e, ?_, ?_⟩
    · unfold outEdges
      exact List.mem_filter.mpr ⟨he, decide_eq_true hsrc⟩
    · rw [if_neg (hdst ▸ hne), hdst]

theorem bfsPushes_length (g : KGraph K) (ent : String) (depth : K) :
    (bfsPushes g ent depth).length = outdegNL g ent := by
  unfold bfsPushes outdegNL outEdges
  induction g.edges with
  | nil => rfl
  | cons e t ih =>
    by_cases hsrc : e.src = ent
    · by_cases hdst : e.dst = "Literal"
      · simpa [List.filter_cons, List.filterMap_cons, hsrc, hdst] using ih
      · simpa [List.filter_cons, List.filterMap_cons, hsrc, hdst] using ih
    · simpa [List.filter_cons, List.filterMap_cons, hsrc] using ih

theorem bfs_climb (g : KGraph K) (root : String) (seen : List String)
    (items order : List (String × K))
    (hseen : ∀ c, c ∈ seen ↔ c ∈ order.map Prod.fst)
    (hdist : ∀ p ∈ order, ∃ n : ℕ, p.2 = (n : K) ∧ minReach g root p.1 n)
    (hclo : ∀ v ∈ seen, ∀ w, stepRel g v w → w ∈ seen ∨
      ∃ dv : ℕ, (w, ((dv + 1 : ℕ) : K)) ∈ items ∧ minReach g root v dv) :
    ∀ (m : ℕ) (v : String) (dv : ℕ) (c : String), v ∈ seen →
      minReach g root v dv → reachN g v m c → c ∈ seen ∨
        ∃ (b : String) (db m' : ℕ), (b, (db : K)) ∈ items ∧
          db + m' ≤ dv + m ∧ reachN g b m' c := by
  intro m
  induction m with
  | zero =>
    intro v dv c hv _ hr
    rw [reachN_zero] at hr
    exact Or.inl (hr ▸ hv)
  | succ m ih =>
    intro v dv c hv hmin hr
    rcases (reachN_succ_head g v c m).mp hr with ⟨w, hstep, hwc⟩
    rcases hclo v hv w hstep with hw | ⟨dv', hwit, hmin'⟩
    · rcases (hseen w).mp hw with hwo
      rcases List.mem_map.mp hwo with ⟨p, hp, hpw⟩
      rcases hdist p hp with ⟨nw, _, hminw⟩
      have hminw' : minReach g root w nw := hpw ▸ hminw
      have hreach : reachN g root (dv + 1) w := ⟨v, hmin.1, hstep⟩
      have hle : nw ≤ dv + 1 := hminw'.2 _ hreach
      rcases ih w nw c hw hminw' hwc with hc | ⟨b, db, m', hb, hble, hbr⟩
      · exact Or.inl hc
      · exact Or.inr ⟨b, db, m', hb, by omega, hbr⟩
    · have hdv : dv' = dv := minReach_unique g root v dv' dv hmin' hmin
      exact Or.inr ⟨w, dv' + 1, m, hwit, by omega, hwc⟩

theorem sum_map_add_nat (l : List String) (f h : String → ℕ) :
    (l.map (fun x => f x + h x)).sum = (l.map f).sum + (l.map h).sum := by
  induction l with
  | nil => rfl
  | cons y t ih =>
    simp only [List.map_cons, List.sum_cons, ih]
    omega

theorem sum_ite_le_one (l : List String) (hnd : l.Nodup) (x : String)
    (Q : Prop) [Decidable Q] :
    (l.map (fun n => if x = n ∧ Q then 1 else 0)).sum ≤ 1 := by
  induction l with
  | nil => simp
  | cons y t ih =>
    rcases List.nodup_cons.mp hnd with ⟨hyt, hndt⟩
    by_cases h : x = y ∧ Q
    · obtain ⟨h1, h2⟩ := h
      subst h1
      have ht : (t.map (fun n => if x = n ∧ Q then 1 else 0)).sum = 0 := by
        apply List.sum_eq_zero
        intro z hz
        rcases List.mem_map.mp hz with ⟨n, hn, rfl⟩
        have hne : ¬ (x = n ∧ Q) := fun hc => hyt (hc.1 ▸ hn)
        simp [hne]
      rw [List.map_cons, List.sum_cons, ht]
      simp [h2]
    · simp only [List.map_cons, List.sum_cons, if_neg h, Nat.zero_add]
      exact ih hndt

theorem sum_outdeg_le (es : List (KEdge K)) : ∀ (l : List String), l.Nodup →
    (l.map (fun n =>
      (es.filter (fun e => e.src = n ∧ ¬ e.dst = "Literal")).length)).sum
      ≤ es.length := by
  induction es with
  | nil =>
    intro l _
    simp
  | cons e t ih =>
    intro l hnd
    have hsplit : ∀ n ∈ l,
        (fun n => ((e :: t).filter
            (fun x => x.src = n ∧ ¬ x.dst = "Literal")).length) n
        = (fun n => (if e.src = n ∧ ¬ e.dst = "Literal" then 1 else 0)
            + (t.filter (fun x => x.src = n ∧ ¬ x.dst = "Literal")).length) n := by
      intro n _
      by_cases h : e.src = n ∧ ¬ e.dst = "Literal"
      · simp [List.filter_cons, h, Nat.add_comm]
      · simp [List.filter_cons, h]
    rw [List.map_congr_left hsplit, sum_map_add_nat]
    have h1 := sum_ite_le_one l hnd e.src (¬ e.dst = "Literal")
    have h2 := ih l hnd
    simp only [List.length_cons]
    omega

theorem sum_filter_cons_seen (l : List String) (hnd : l.Nodup)
    (f : String → ℕ) (x : String) (hx : x ∈ l) (seen : List String)
    (hxs : x ∉ seen) :
    ((l.filter (fun n => ¬ n ∈ (x :: seen))).map f).sum + f x
      = ((l.filter (fun n => ¬ n ∈ seen)).map f).sum := by
  induction l with
  | nil => cases hx
  | cons y t ih =>
    rcases List.nodup_cons.mp hnd with ⟨hyt, hndt⟩
    by_cases hxy : x = y
    · subst hxy
      have h1 : (x :: t).filter (fun n => ¬ n ∈ (x :: seen))
          = t.filter (fun n => ¬ n ∈ (x :: seen)) := by
        simp [List.filter_cons]
      have h2 : (x :: t).filter (fun n => ¬ n ∈ seen)
          = x :: t.filter (fun n => ¬ n ∈ seen) := by
        simp [List.filter_cons, hxs]
      have h3 : t.filter (fun n => ¬ n ∈ (x :: seen))
          = t.filter (fun n => ¬ n ∈ seen) := by
        apply List.filter_congr
        intro n hn
        have hnx : ¬ n = x := fun h => hyt (h ▸ hn)
        simp [List.mem_cons, hnx]
      rw [h1, h3, h2, List.map_cons, List.sum_cons]
      omega
    · have hxt : x ∈ t := (List.mem_cons.mp hx).resolve_left hxy
      have hymem : (y ∈ (x :: seen)) ↔ y ∈ seen := by
        have : ¬ y = x := fun h => hxy h.symm
        simp [List.mem_cons, this]
      have hynx : ¬ y = x := fun h => hxy h.symm
      by_cases hys : y ∈ seen
      · have hmem1 : y ∈ x :: seen := List.mem_cons_of_mem x hys
        have h1 : (y :: t).filter (fun n => ¬ n ∈ (x :: seen))
            = t.filter (fun n => ¬ n ∈ (x :: seen)) := by
          simp only [List.filter_cons]
          simp [List.mem_cons]
          exact fun _ => hys
        have h2 : (y :: t).filter (fun n => ¬ n ∈ seen)
            = t.filter (fun n => ¬ n ∈ seen) := by
          simp [List.filter_cons, hys]
        rw [h1, h2]
        exact ih hndt hxt
      · have hmem1 : y ∉ x :: seen := by
          simp [List.mem_cons, hynx, hys]
        have h1 : (y :: t).filter (fun n => ¬ n ∈ (x :: seen))
            = y :: t.filter (fun n => ¬ n ∈ (x :: seen)) := by
          simp only [List.filter_cons]
          simp [List.mem_cons]
          exact ⟨hynx, hys⟩
        have h2 : (y :: t).filter (fun n => ¬ n ∈ seen)
            = y :: t.filter (fun n => ¬ n ∈ seen) := by
          simp [List.filter_cons, hys]
        rw [h1, h2, List.map_cons, List.sum_cons, List.map_cons, List.sum_cons]
        have := ih hndt hxt
        omega

theorem bfsPot_skip (g : KGraph K) (seen : List String) (p : String × K)
    (rest : List (String × K)) :
    bfsPot g seen rest + 1 = bfsPot g seen (p :: rest) := by
  unfold bfsPot
  simp [List.length_cons]
  omega

theorem bfsPot_process (g : KGraph K) (hnd : g.nodes.Nodup)
    (seen : List String) (ent : String) (depth : K)
    (rest : List (String × K)) (hent : ent ∈ g.nodes) (hseen : ent ∉ seen) :
    bfsPot g (ent :: seen) (rest ++ bfsPushes g ent depth) + 1
      = bfsPot g seen ((ent, depth) :: rest) := by
  unfold bfsPot
  rw [List.length_append, bfsPushes_length]
  have key := sum_filter_cons_seen g.nodes hnd (outdegNL g) ent hent seen hseen
  simp only [List.length_cons]
  omega

theorem bfsPot_init (g : KGraph K) (hnd : g.nodes.Nodup) (root : String)
    (depth : K) :
    bfsPot g [] [(root, depth)] ≤ g.edges.length + 1 := by
  unfold bfsPot
  have h1 : g.nodes.filter (fun n => ¬ n ∈ ([] : List String)) = g.nodes := by
    simp
  rw [h1]
  have h2 : (g.nodes.map (outdegNL g)).sum ≤ g.edges.length := by
    have := sum_outdeg_le g.edges g.nodes hnd
    unfold outdegNL
    exact this
  simp only [List.length_cons, List.length_nil]
  omega

theorem bfsAux_zero (g : KGraph K) (seen : List String)
    (items order : List (String × K)) :
    bfsAux g 0 seen items order = order := rfl

theorem bfsAux_succ_nil (g : KGraph K) (fuel : ℕ) (seen : List String)
    (order : List (String × K)) :
    bfsAux g (fuel + 1) seen [] order = order := rfl

theorem bfsAux_succ_cons (g : KGraph K) (fuel : ℕ) (seen : List String)
    (ent : String) (depth : K) (rest order : List (String × K)) :
    bfsAux g (fuel + 1) seen ((ent, depth) :: rest) order
      = if ent ∈ seen then bfsAux g fuel seen rest order
        else if ent ∈ g.nodes then
          bfsAux g fuel (ent :: seen) (rest ++ bfsPushes g ent depth)
            (order ++ [(ent, depth)])
        else order ++ [(ent, depth)] := rfl

theorem pairwise_le_of_all_eq (l : List K) (c : K) (h : ∀ x ∈ l, x = c) :
    l.Pairwise (fun a b => a ≤ b) := by
  induction l with
  | nil => exact List.Pairwise.nil
  | cons y t ih =>
    refine List.Pairwise.cons ?_ (ih (fun x hx => h x (List.mem_cons_of_mem y hx)))
    intro x hx
    rw [h y (List.mem_cons_self y t), h x (List.mem_cons_of_mem y hx)]

theorem head?_mem_list (l : List (String × K)) (p : String × K)
    (h : l.head? = some p) : p ∈ l := by
  cases l with
  | nil => cases h
  | cons a t =>
    have : a = p := Option.some.inj h
    exact this ▸ List.mem_cons_self a t

theorem bfsPushes_snd (g : KGraph K) (ent : String) (depth : K)
    (q : String × K) (hq : q ∈ bfsPushes g ent depth) : q.2 = depth + 1 := by
  rcases q with ⟨w, d'⟩
  exact ((bfsPushes_mem g ent depth w d').mp hq).2

theorem bfsPushes_step (g : KGraph K) (ent : String) (depth : K)
    (q : String × K) (hq : q ∈ bfsPushes g ent depth) : stepRel g ent q.1 := by
  rcases q with ⟨w, d'⟩
  exact ((bfsPushes_mem g ent depth w d').mp hq).1

theorem bfs_run (g : KGraph K) (root : String)
    (hnd : g.nodes.Nodup)
    (hwf : ∀ e ∈ g.edges, e.src ∈ g.nodes ∧ e.dst ∈ g.nodes)
    (hroot : root ∈ g.nodes) :
    ∀ (fuel : ℕ) (seen : List String) (items order : List (String × K)),
      BfsInv g root seen items order → bfsPot g seen items ≤ fuel →
      ∃ seenF orderF, bfsAux g fuel seen items order = orderF ∧
        BfsInv g root seenF [] orderF := by
  intro fuel
  induction fuel with
  | zero =>
    intro seen items order hinv hpot
    have hlen : items.length = 0 := by
      unfold bfsPot at hpot
      omega
    have hempty : items = [] := List.length_eq_zero.mp hlen
    subst hempty
    exact ⟨seen, order, bfsAux_zero g seen [] order, hinv⟩
  | succ fuel ih =>
    intro seen items order hinv hpot
    cases items with
    | nil => exact ⟨seen, order, bfsAux_succ_nil g fuel seen order, hinv⟩
    | cons front rest =>
      rcases front with ⟨ent, depth⟩
      rcases hinv.items_sound (ent, depth) (List.mem_cons_self _ _)
        with ⟨nd, hdepth, hreach⟩
      have hdepth' : depth = (nd : K) := hdepth
      have hreach' : reachN g root nd ent := hreach
      by_cases hseen : ent ∈ seen
      · -- already-seen front: drop it
        rw [bfsAux_succ_cons, if_pos hseen]
        have hboundOld : ∀ q ∈ (ent, depth) :: rest, q.2 ≤ depth + 1 :=
          fun q hq => hinv.items_bound (ent, depth) q rfl hq
        have hsortedTail : List.Pairwise (fun a b => a ≤ b) (rest.map Prod.snd) :=
          (List.pairwise_cons.mp hinv.items_sorted).2
        have hheadLe : ∀ x ∈ rest.map Prod.snd, depth ≤ x :=
          (List.pairwise_cons.mp hinv.items_sorted).1
        have hclo' : ∀ v ∈ seen, ∀ w, stepRel g v w → w ∈ seen ∨
            ∃ dv : ℕ, (w, ((dv + 1 : ℕ) : K)) ∈ rest ∧ minReach g root v dv := by
          intro v hv w hstep
          rcases hinv.closure v hv w hstep with hw | ⟨dv, hwit, hmin⟩
          · exact Or.inl hw
          · rcases List.mem_cons.mp hwit with heq | hwit'
            · have : w = ent := congrArg Prod.fst heq
              exact Or.inl (this ▸ hseen)
            · exact Or.inr ⟨dv, hwit', hmin⟩
        have hinv' : BfsInv g root seen rest order := by
          refine ⟨hinv.seen_eq, hinv.order_nodup, hinv.order_dist, ?_, hsortedTail, ?_, hclo', ?_⟩
          · exact fun p hp => hinv.items_sound p (List.mem_cons_of_mem _ hp)
          · intro p q hp hq
            have h1 : q.2 ≤ depth + 1 :=
              hboundOld q (List.mem_cons_of_mem _ hq)
            have h2 : depth ≤ p.2 :=
              hheadLe p.2 (List.mem_map.mpr ⟨p, head?_mem_list rest p hp, rfl⟩)
            linarith
          · -- frontier is preserved: route witnesses that sat on the dropped
            -- front through the climbing lemma
            intro n c hr
            rcases hinv.frontier n c hr with hc | ⟨b, db, m, hbmem, hble, hbr⟩
            · exact Or.inl hc
            · rcases List.mem_cons.mp hbmem with heq | hbrest
              · have hb : b = ent := congrArg Prod.fst heq
                have hdb : (db : K) = depth := congrArg Prod.snd heq
                subst hb
                have hdbnd : db = nd := by
                  have h1 : (db : K) = (nd : K) := by rw [hdb]; exact hdepth'
                  exact_mod_cast h1
                rcases List.mem_map.mp ((hinv.seen_eq b).mp hseen)
                  with ⟨p, hp, hpb⟩
                rcases hinv.order_dist p hp with ⟨ne, _, hmine⟩
                have hmine' : minReach g root b ne := hpb ▸ hmine
                have hnele : ne ≤ db := hdbnd ▸ hmine'.2 nd hreach'
                rcases bfs_climb g root seen rest order hinv.seen_eq
                    hinv.order_dist hclo' m b ne c hseen hmine' hbr
                  with hc | ⟨b', db', m', hb', hble', hbr'⟩
                · exact Or.inl hc
                · exact Or.inr ⟨b', db', m', hb', by omega, hbr'⟩
              · exact Or.inr ⟨b, db, m, hbrest, hble, hbr⟩
        have hpot' : bfsPot g seen rest ≤ fuel := by
          have := bfsPot_skip g seen (ent, depth) rest
          omega
        exact ih seen rest order hinv' hpot'
      · -- unseen front: it is in the graph (soundness), gets processed
        have hent : ent ∈ g.nodes := reachN_mem_nodes g root hwf hroot nd ent hreach'
        rw [bfsAux_succ_cons, if_neg hseen, if_pos hent]
        -- the recorded depth is the exact BFS distance
        rcases exists_minReach g root ent nd hreach' with ⟨ns, hmins⟩
        have hnsnd : ns ≤ nd := hmins.2 nd hreach'
        have hndns : nd = ns := by
          rcases hinv.frontier ns ent hmins.1 with hc | ⟨b, db, m, hbmem, hble, hbr⟩
          · exact absurd hc hseen
          · have hndledb : nd ≤ db := by
              rcases List.mem_cons.mp hbmem with heq | hbrest
              · have h1 : (db : K) = depth := congrArg Prod.snd heq
                have h2 : (db : K) = (nd : K) := by rw [h1]; exact hdepth'
                have h3 : db = nd := by exact_mod_cast h2
                omega
              · have hdble : depth ≤ (db : K) :=
                  (List.pairwise_cons.mp hinv.items_sorted).1 (db : K)
                    (List.mem_map.mpr ⟨(b, (db : K)), hbrest, rfl⟩)
                rw [hdepth'] at hdble
                exact_mod_cast hdble
            omega
        have hmin : minReach g root ent nd := hndns ▸ hmins
        have hboundOld : ∀ q ∈ (ent, depth) :: rest, q.2 ≤ depth + 1 :=
          fun q hq => hinv.items_bound (ent, depth) q rfl hq
        have hsortedTail : List.Pairwise (fun a b => a ≤ b) (rest.map Prod.snd) :=
          (List.pairwise_cons.mp hinv.items_sorted).2
        have hheadLe : ∀ x ∈ rest.map Prod.snd, depth ≤ x :=
          (List.pairwise_cons.mp hinv.items_sorted).1
        have hinv' : BfsInv g root (ent :: seen)
            (rest ++ bfsPushes g ent depth) (order ++ [(ent, depth)]) := by
          refine ⟨?_, ?_, ?_, ?_, ?_, ?_, ?_, ?_⟩
          · intro c
            rw [List.mem_cons, List.map_append, List.mem_append, hinv.seen_eq c]
            simp [or_comm]
          · rw [List.map_append]
            have hne : ent ∉ order.map Prod.fst :=
              fun h => hseen ((hinv.seen_eq ent).mpr h)
            simp [List.nodup_append, hinv.order_nodup, hne]
          · intro p hp
            rcases List.mem_append.mp hp with hpo | hps
            · exact hinv.order_dist p hpo
            · have : p = (ent, depth) := List.mem_singleton.mp hps
              subst this
              exact ⟨nd, hdepth, hmin⟩
          · intro p hp
            rcases List.mem_append.mp hp with hpr | hpp
            · exact hinv.items_sound p (List.mem_cons_of_mem _ hpr)
            · refine ⟨nd + 1, ?_, ?_⟩
              · rw [bfsPushes_snd g ent depth p hpp, hdepth']
                push_cast
                ring
              · exact ⟨ent, hreach', bfsPushes_step g ent depth p hpp⟩
          · rw [List.map_append]
            rw [List.pairwise_append]
            refine ⟨hsortedTail, ?_, ?_⟩
            · apply pairwise_le_of_all_eq _ (depth + 1)
              intro x hx
              rcases List.mem_map.mp hx with ⟨q, hq, rfl⟩
              exact bfsPushes_snd g ent depth q hq
            · intro x hx y hy
              rcases List.mem_map.mp hx with ⟨q, hq, rfl⟩
              rcases List.mem_map.mp hy with ⟨q', hq', rfl⟩
              have h1 : q.2 ≤ depth + 1 :=
                hboundOld q (List.mem_cons_of_mem _ hq)
              have h2 : q'.2 = depth + 1 := bfsPushes_snd g ent depth q' hq'
              rw [h2]
              exact h1
          · intro p q hp hq
            have hdp : depth ≤ p.2 := by
              cases hrest : rest with
              | nil =>
                rw [hrest] at hp
                simp only [List.nil_append] at hp
                have hpmem := head?_mem_list _ p hp
                rw [bfsPushes_snd g ent depth p hpmem]
                linarith
              | cons r rs =>
                rw [hrest] at hp
                simp only [List.cons_append, List.head?_cons] at hp
                have : r = p := Option.some.inj hp
                subst this
                exact hheadLe r.2 (List.mem_map.mpr ⟨r, hrest ▸ List.mem_cons_self r rs, rfl⟩)
            rcases List.mem_append.mp hq with hqr | hqp
            · have : q.2 ≤ depth + 1 := hboundOld q (List.mem_cons_of_mem _ hqr)
              linarith
            · rw [bfsPushes_snd g ent depth q hqp]
              linarith
          · intro v hv w hstep
            rcases List.mem_cons.mp hv with rfl | hvseen
            · refine Or.inr ⟨nd, ?_, hmin⟩
              apply List.mem_append_right
              apply (bfsPushes_mem g v depth w _).mpr
              refine ⟨hstep, ?_⟩
              rw [hdepth']
              push_cast
              ring
            · rcases hinv.closure v hvseen w hstep with hw | ⟨dv, hwit, hminv⟩
              · exact Or.inl (List.mem_cons_of_mem _ hw)
              · rcases List.mem_cons.mp hwit with heq | hwit'
                · have : w = ent := congrArg Prod.fst heq
                  exact Or.inl (this ▸ List.mem_cons_self _ _)
                · exact Or.inr ⟨dv, List.mem_append_left _ hwit', hminv⟩
          · intro n c hr
            rcases hinv.frontier n c hr with hc | ⟨b, db, m, hbmem, hble, hbr⟩
            · exact Or.inl (List.mem_cons_of_mem _ hc)
            · rcases List.mem_cons.mp hbmem with heq | hbrest
              · have hb : b = ent := congrArg Prod.fst heq
                have hdb : (db : K) = depth := congrArg Prod.snd heq
                subst hb
                have hdbnd : db = nd := by
                  have h1 : (db : K) = (nd : K) := by rw [hdb]; exact hdepth'
                  exact_mod_cast h1
                cases m with
                | zero =>
                  rw [reachN_zero] at hbr
                  exact Or.inl (hbr ▸ List.mem_cons_self _ _)
                | succ m' =>
                  rcases (reachN_succ_head g b c m').mp hbr with ⟨w, hstep, hwc⟩
                  refine Or.inr ⟨w, nd + 1, m', ?_, by omega, hwc⟩
                  apply List.mem_append_right
                  apply (bfsPushes_mem g b depth w _).mpr
                  refine ⟨hstep, ?_⟩
                  rw [hdepth']
                  push_cast
                  ring
              · exact Or.inr ⟨b, db, m, List.mem_append_left _ hbrest, hble, hbr⟩
        have hpot' : bfsPot g (ent :: seen) (rest ++ bfsPushes g ent depth) ≤ fuel := by
          have := bfsPot_process g hnd seen ent depth rest hent hseen
          omega
        exact ih (ent :: seen) (rest ++ bfsPushes g ent depth)
          (order ++ [(ent, depth)]) hinv' hpot'

/-- C9: on a graph containing the synthesized root, `remove_disconnected`
is a breadth-first traversal from the root along outgoing edges: every
returned class appears exactly once, paired with its first-seen BFS depth
(the least number of steps from the root); every class reachable from the
root appears; the Literal sink is never visited (it is never enqueued as a
destination); unreachable classes are excluded (contrapositive of the depth
characterization); and the returned list is the reverse of the discovery
order. -/
theorem remove_disconnected_spec (g : KGraph K) (start_with : String)
    (hnd : g.nodes.Nodup)
    (hwf : ∀ e ∈ g.edges, e.src ∈ g.nodes ∧ e.dst ∈ g.nodes)
    (hroot : rootIRI start_with ∈ g.nodes)
    (hrootlit : rootIRI start_with ≠ "Literal") :
    ((remove_disconnected g start_with).map Prod.fst).Nodup ∧
    (∀ p ∈ remove_disconnected g start_with,
        ∃ n : ℕ, p.2 = (n : K) ∧ minReach g (rootIRI start_with) p.1 n) ∧
    (∀ c, (∃ n, reachN g (rootIRI start_with) n c) →
        c ∈ (remove_disconnected g start_with).map Prod.fst) ∧
    "Literal" ∉ (remove_disconnected g start_with).map Prod.fst ∧
    remove_disconnected g start_with
      = (bfsAux g (g.edges.length + 2) [] [(rootIRI start_with, 0)] []).reverse := by
  have hinv0 : BfsInv g (rootIRI start_with) [] [(rootIRI start_with, 0)] [] := by
    refine ⟨?_, ?_, ?_, ?_, ?_, ?_, ?_, ?_⟩
    · intro c
      simp
    · simp
    · intro p hp
      cases hp
    · intro p hp
      have hpe : p = (rootIRI start_with, 0) := List.mem_singleton.mp hp
      subst hpe
      exact ⟨0, by norm_num, rfl⟩
    · simp
    · intro p q hp hq
      have hpe : p = (rootIRI start_with, 0) :=
        List.mem_singleton.mp (head?_mem_list _ p hp)
      have hqe : q = (rootIRI start_with, 0) := List.mem_singleton.mp hq
      subst hpe
      subst hqe
      norm_num
    · intro v hv
      cases hv
    · intro n c hr
      refine Or.inr ⟨rootIRI start_with, 0, n, ?_, by omega, hr⟩
      simp
  have hpot0 : bfsPot g [] [(rootIRI start_with, 0)] ≤ g.edges.length + 2 := by
    have := bfsPot_init g hnd (rootIRI start_with) (0 : K)
    omega
  rcases bfs_run g (rootIRI start_with) hnd hwf hroot (g.edges.length + 2)
      [] [(rootIRI start_with, 0)] [] hinv0 hpot0
    with ⟨seenF, orderF, heq, hinvF⟩
  have hrd : remove_disconnected g start_with = orderF.reverse := by
    unfold remove_disconnected
    rw [heq]
  refine ⟨?_, ?_, ?_, ?_, rfl⟩
  · rw [hrd, List.map_reverse]
    exact List.nodup_reverse.mpr hinvF.order_nodup
  · intro p hp
    rw [hrd, List.mem_reverse] at hp
    exact hinvF.order_dist p hp
  · intro c hc
    rcases hc with ⟨n, hn⟩
    rcases hinvF.frontier n c hn with hcs | ⟨b, db, m, hbmem, _, _⟩
    · rw [hrd, List.map_reverse, List.mem_reverse]
      exact (hinvF.seen_eq c).mp hcs
    · cases hbmem
  · intro hlit
    rw [hrd, List.map_reverse, List.mem_reverse] at hlit
    rcases List.mem_map.mp hlit with ⟨p, hp, hpl⟩
    rcases hinvF.order_dist p hp with ⟨n, _, hmin⟩
    exact reachN_ne_literal g (rootIRI start_with) hrootlit n p.1 hmin.1 hpl

/-- Witness for C9 at a concrete rational graph with hint "Thing". -/
theorem remove_disconnected_spec_witness :
    (c9wGraph.nodes.Nodup ∧
      (∀ e ∈ c9wGraph.edges, e.src ∈ c9wGraph.nodes ∧ e.dst ∈ c9wGraph.nodes) ∧
      rootIRI "Thing" ∈ c9wGraph.nodes ∧
      rootIRI "Thing" ≠ "Literal") ∧
    (((remove_disconnected c9wGraph "Thing").map Prod.fst).Nodup ∧
      "Literal" ∉ (remove_disconnected c9wGraph "Thing").map Prod.fst) := by
  refine ⟨⟨by decide, by decide, by decide, by decide⟩, ?_, ?_⟩
  · exact (remove_disconnected_spec c9wGraph "Thing"
      (by decide) (by decide) (by decide) (by decide)).1
  · exact (remove_disconnected_spec c9wGraph "Thing"
      (by decide) (by decide) (by decide) (by decide)).2.2.2.1

theorem keepLoop_nil (t : K) : keepLoop ([] : List (String × K)) t = [] := rfl

theorem keepLoop_cons (p : String × K) (rest : List (String × K)) (t : K) :
    keepLoop (p :: rest) t
      = if t ≤ 0 then [] else p :: keepLoop rest (t - p.2) := rfl

/-- The keep loop returns exactly the shortest prefix whose cumulative
weight reaches or exceeds the threshold, provided the total weight does. -/
theorem keepLoop_spec :
    ∀ (l : List (String × K)) (t : K), t ≤ ((l.map Prod.snd).sum) →
      ∃ n, n ≤ l.length ∧ keepLoop l t = l.take n ∧
        t ≤ psum l n ∧ ∀ m < n, psum l m < t := by
  intro l
  induction l with
  | nil =>
    intro t ht
    refine ⟨0, le_refl _, keepLoop_nil t, ?_, ?_⟩
    · simpa [psum] using ht
    · intro m hm
      cases hm
  | cons p rest ih =>
    intro t ht
    by_cases h0 : t ≤ 0
    · refine ⟨0, Nat.zero_le _, ?_, ?_, ?_⟩
      · rw [keepLoop_cons, if_pos h0]
        rfl
      · simpa [psum] using h0
      · intro m hm
        cases hm
    · have ht' : t - p.2 ≤ ((rest.map Prod.snd).sum) := by
        rw [List.map_cons, List.sum_cons] at ht
        linarith
      rcases ih (t - p.2) ht' with ⟨n, hnle, hloop, hge, hlt⟩
      refine ⟨n + 1, by simpa using Nat.succ_le_succ hnle, ?_, ?_, ?_⟩
      · rw [keepLoop_cons, if_neg h0, hloop]
        rfl
      · have : psum (p :: rest) (n + 1) = p.2 + psum rest n := by
          simp [psum, List.take_cons, List.map_cons, List.sum_cons]
        rw [this]
        linarith
      · intro m hm
        cases m with
        | zero =>
          have : psum (p :: rest) 0 = 0 := rfl
          rw [this]
          linarith
        | succ m' =>
          have hm' : m' < n := Nat.lt_of_succ_lt_succ hm
          have : psum (p :: rest) (m' + 1) = p.2 + psum rest m' := by
            simp [psum, List.take_cons, List.map_cons, List.sum_cons]
          rw [this]
          have := hlt m' hm'
          linarith

/-- C1: in pruning round `i < 3` with `levels = 3`, the per-class weight is
`exp(s)` over the sum of `exp(s)` for the composite score `s`, and the kept
set is exactly the shortest descending-weight prefix whose cumulative
weight reaches or exceeds the threshold `(i+1)/(levels+1)`; every node-map
key outside that prefix (other than the Literal sink) is removed. -/
theorem rank_round_keep (stats : List (RankStat ℝ)) (hne : stats ≠ [])
    (i : ℕ) (hi : i < 3) :
    rankWeights stats = stats.map (fun st =>
      (st.node, Real.exp (compositeScore ((stats.map (fun st2 => st2.count)).sum) st)
        / ((stats.map (fun st => Real.exp
            (compositeScore ((stats.map (fun st2 => st2.count)).sum) st))).sum))) ∧
    List.Sorted weightGE (sortedWeights stats) ∧
    (∃ n, n ≤ (sortedWeights stats).length ∧
      rank stats (((i : ℝ) + 1) / ((3 : ℝ) + 1)) = (sortedWeights stats).take n ∧
      ((i : ℝ) + 1) / ((3 : ℝ) + 1) ≤ psum (sortedWeights stats) n ∧
      ∀ m < n, psum (sortedWeights stats) m < ((i : ℝ) + 1) / ((3 : ℝ) + 1)) ∧
    (∀ (nodes : List String) (k : String),
      k ∈ keysToRemove nodes (rank stats (((i : ℝ) + 1) / ((3 : ℝ) + 1)))
        ↔ k ∈ nodes ∧
          ¬ (k ∈ (rank stats (((i : ℝ) + 1) / ((3 : ℝ) + 1))).map Prod.fst
            ∨ k = "Literal")) := by
  have hformula : rankWeights stats = stats.map (fun st =>
      (st.node, Real.exp (compositeScore ((stats.map (fun st2 => st2.count)).sum) st)
        / ((stats.map (fun st => Real.exp
            (compositeScore ((stats.map (fun st2 => st2.count)).sum) st))).sum))) := by
    unfold rankWeights
    rw [List.map_map]
    rfl
  have hSpos : 0 < (stats.map (fun st => Real.exp
      (compositeScore ((stats.map (fun st2 => st2.count)).sum) st))).sum := by
    apply List.sum_pos
    · intro x hx
      rcases List.mem_map.mp hx with ⟨st, _, rfl⟩
      exact Real.exp_pos _
    · simpa using hne
  have hsum1 : ((rankWeights stats).map Prod.snd).sum = 1 := by
    rw [hformula, List.map_map]
    have heq : (Prod.snd ∘ fun st => (st.node, Real.exp
        (compositeScore ((stats.map (fun st2 => st2.count)).sum) st)
        / ((stats.map (fun st => Real.exp
            (compositeScore ((stats.map (fun st2 => st2.count)).sum) st))).sum)))
        = fun st => (fun st => Real.exp
            (compositeScore ((stats.map (fun st2 => st2.count)).sum) st)) st
          / ((stats.map (fun st => Real.exp
            (compositeScore ((stats.map (fun st2 => st2.count)).sum) st))).sum) := rfl
    rw [heq, sum_map_div]
    exact div_self (ne_of_gt hSpos)
  have hsortsum : ((sortedWeights stats).map Prod.snd).sum = 1 := by
    have hperm : List.Perm (sortedWeights stats) (rankWeights stats) :=
      List.perm_insertionSort weightGE (rankWeights stats)
    rw [(hperm.map Prod.snd).sum_eq]
    exact hsum1
  have ht1 : ((i : ℝ) + 1) / ((3 : ℝ) + 1) ≤ 1 := by
    rw [div_le_one (by norm_num : (0 : ℝ) < 3 + 1)]
    have : (i : ℝ) ≤ 3 := by
      have : i ≤ 3 := le_of_lt hi
      exact_mod_cast this
    linarith
  have hts : ((i : ℝ) + 1) / ((3 : ℝ) + 1) ≤ ((sortedWeights stats).map Prod.snd).sum := by
    rw [hsortsum]
    exact ht1
  refine ⟨hformula, List.sorted_insertionSort weightGE (rankWeights stats), ?_, ?_⟩
  · exact keepLoop_spec (sortedWeights stats) _ hts
  · intro nodes k
    unfold keysToRemove
    rw [List.mem_filter]
    simp

/-- Witness for C1 at a one-class stats vector and round 0. -/
theorem rank_round_keep_witness :
    (([⟨"A", 1, 1, 1, 1⟩] : List (RankStat ℝ)) ≠ [] ∧ 0 < 3) ∧
    (∃ n, n ≤ (sortedWeights [⟨"A", 1, 1, 1, 1⟩]).length ∧
      rank [⟨"A", 1, 1, 1, 1⟩] (((0 : ℕ) + 1 : ℝ) / ((3 : ℝ) + 1))
        = (sortedWeights [⟨"A", 1, 1, 1, 1⟩]).take n ∧
      (((0 : ℕ) + 1 : ℝ)) / ((3 : ℝ) + 1) ≤ psum (sortedWeights [⟨"A", 1, 1, 1, 1⟩]) n ∧
      ∀ m < n, psum (sortedWeights [⟨"A", 1, 1, 1, 1⟩]) m
        < (((0 : ℕ) + 1 : ℝ)) / ((3 : ℝ) + 1)) := by
  refine ⟨⟨by simp, by decide⟩, ?_⟩
  exact (rank_round_keep [⟨"A", 1, 1, 1, 1⟩] (by simp) 0 (by decide)).2.2.1

theorem mem_addRatios : ∀ (l : List (ScoredRow ℝ)) (q : ScoredRow ℝ × Option ℝ),
    q ∈ addRatios l → q.1 ∈ l
  | [], q, hq => by cases hq
  | [a], q, hq => by
    have : q = (a, none) := List.mem_singleton.mp hq
    subst this
    exact List.mem_singleton.mpr rfl
  | a :: b :: t, q, hq => by
    rcases List.mem_cons.mp hq with heq | hq'
    · subst heq
      exact List.mem_cons_self _ _
    · exact List.mem_cons_of_mem a (mem_addRatios (b :: t) q hq')

theorem normalize_column_mem (data : List (String × PredRow ℝ))
    (get : PredRow ℝ → ℝ) (set : PredRow ℝ → ℝ → PredRow ℝ)
    (hset : ∀ r v, (set r v).uniqueness = r.uniqueness) :
    ∀ p ∈ normalize_column data get set,
      ∃ p0 ∈ data, p.1 = p0.1 ∧ p.2.uniqueness = p0.2.uniqueness := by
  intro p hp
  unfold normalize_column at hp
  by_cases hc : |listMax (data.map (fun p => get p.2))
      - listMin (data.map (fun p => get p.2))| < 1 / 10 ^ 12
  · rw [if_pos hc] at hp
    rcases List.mem_map.mp hp with ⟨p0, hp0, rfl⟩
    exact ⟨p0, hp0, rfl, hset _ _⟩
  · rw [if_neg hc] at hp
    rcases List.mem_map.mp hp with ⟨p0, hp0, rfl⟩
    exact ⟨p0, hp0, rfl, hset _ _⟩

theorem normalize_column_length (data : List (String × PredRow ℝ))
    (get : PredRow ℝ → ℝ) (set : PredRow ℝ → ℝ → PredRow ℝ) :
    (normalize_column data get set).length = data.length := by
  unfold normalize_column
  by_cases hc : |listMax (data.map (fun p => get p.2))
      - listMin (data.map (fun p => get p.2))| < 1 / 10 ^ 12
  · rw [if_pos hc, List.length_map]
  · rw [if_neg hc, List.length_map]

theorem compute_scores_ne_nil (nn : PredRow ℝ → ℝ)
    (data : List (String × PredRow ℝ)) (hne : data ≠ []) :
    compute_scores nn data
      = Except.ok (addRatios (computeScoresRun nn data)) := by
  unfold compute_scores
  rw [if_neg]
  simp [hne]

/-- C5: on a non-empty stats list, `compute_scores` succeeds; the scored
rows are exactly the input rows where each row with nonzero raw score
receives `exp(rawScore*N) / (denominator/100)` (N the predicate count,
denominator the sum of `exp(rawScore*N)` over nonzero-raw-score rows) and
rows with zero raw score receive 0; the output is sorted by score
descending, so each adjacent score quotient lies in (0, 1] when the scores
are positive. -/
theorem compute_scores_spec (nn : PredRow ℝ → ℝ)
    (data : List (String × PredRow ℝ)) (hne : data ≠ []) :
    compute_scores nn data
      = Except.ok (addRatios (computeScoresRun nn data)) ∧
    List.Perm (computeScoresRun nn data)
      (data.map (fun p => ⟨p.1, p.2, finalScore data p.2, nn p.2⟩)) ∧
    (∀ sc ∈ computeScoresRun nn data,
      sc.score = if rawScore sc.row = 0 then 0
        else Real.exp (rawScore sc.row * (data.length : ℝ))
          / (softmaxDenom data / 100)) ∧
    List.Sorted scoreGE (computeScoresRun nn data) ∧
    List.Chain' (fun a b => 0 < a.score → 0 < b.score →
      (0 < b.score / a.score ∧ b.score / a.score ≤ 1))
      (computeScoresRun nn data) := by
  refine ⟨compute_scores_ne_nil nn data hne, List.perm_insertionSort _ _, ?_,
    List.sorted_insertionSort _ _, ?_⟩
  · intro sc hsc
    have hmem : sc ∈ data.map
        (fun p => (⟨p.1, p.2, finalScore data p.2, nn p.2⟩ : ScoredRow ℝ)) :=
      (List.mem_insertionSort scoreGE).mp hsc
    rcases List.mem_map.mp hmem with ⟨p, _, rfl⟩
    show finalScore data p.2 = _
    unfold finalScore
    rfl
  · have hch : List.Chain' scoreGE (computeScoresRun nn data) :=
      List.Pairwise.chain' (List.sorted_insertionSort _ _)
    refine List.Chain'.imp ?_ hch
    intro a b hab hpa hpb
    exact ⟨div_pos hpb hpa, (div_le_one hpa).mpr hab⟩

/-- Witness for C5 at a one-row stats list. -/
theorem compute_scores_spec_witness :
    ([("a", (⟨0, 0, 0, 0, 0⟩ : PredRow ℝ))] ≠ []) ∧
    List.Sorted scoreGE
      (computeScoresRun (fun _ => 0) [("a", (⟨0, 0, 0, 0, 0⟩ : PredRow ℝ))]) :=
  ⟨by simp,
    (compute_scores_spec (fun _ => 0) [("a", ⟨0, 0, 0, 0, 0⟩)] (by simp)).2.2.2.1⟩

/-- C10: `compute_scores` panics exactly on the empty input (the `usize`
loop bound `data.len() - 1` underflows); it is total on every non-empty
input; and the analyzer never triggers the panic because it returns `None`
before an empty row list ever reaches `compute_scores`. -/
theorem compute_scores_empty_input (nn : PredRow ℝ → ℝ) :
    compute_scores nn [] = Except.error "usize underflow in 0..data.len() - 1" ∧
    (∀ data : List (String × PredRow ℝ), data ≠ [] →
      ∃ out, compute_scores nn data = Except.ok out) ∧
    (∀ (rows : List (String × BaseRow ℝ)) (er : List (String × ℝ)) (msg : String),
      stat_anal_predicates nn rows er ≠ Except.error msg) := by
  refine ⟨rfl, ?_, ?_⟩
  · intro data hne
    exact ⟨_, compute_scores_ne_nil nn data hne⟩
  · intro rows er msg
    unfold stat_anal_predicates
    by_cases h0 : (filteredRows rows).length = 0
    · rw [if_pos h0]
      intro hcontra
      cases hcontra
    · rw [if_neg h0]
      have hlen : (statAnalRows rows er).length = (filteredRows rows).length := by
        unfold statAnalRows
        rw [normalize_column_length, normalize_column_length, List.length_map]
      have hne : statAnalRows rows er ≠ [] := by
        intro hc
        apply h0
        rw [← hlen, hc]
        rfl
      rw [compute_scores_ne_nil nn _ hne]
      intro hcontra
      cases hcontra

/-- Witness for C10: a one-row input is accepted. -/
theorem compute_scores_empty_input_witness :
    ([("a", (⟨0, 0, 0, 0, 0⟩ : PredRow ℝ))] ≠ []) ∧
    (∃ out, compute_scores (fun _ => 0) [("a", (⟨0, 0, 0, 0, 0⟩ : PredRow ℝ))]
      = Except.ok out) :=
  ⟨by simp, (compute_scores_empty_input (fun _ => 0)).2.1 _ (by simp)⟩

/-- C6: the analyzer returns `None` exactly when zero qualifying predicates
remain after the uniqueness filter, and an analysis it does return never
contains a predicate whose uniqueness is 1.0 within the 1e-19 tolerance. -/
theorem stat_anal_uniqueness_filter (nn : PredRow ℝ → ℝ)
    (rows : List (String × BaseRow ℝ)) (er : List (String × ℝ)) :
    (stat_anal_predicates nn rows er = Except.ok none ↔ filteredRows rows = []) ∧
    (∀ l, stat_anal_predicates nn rows er = Except.ok (some l) →
      ∀ q ∈ l, |q.1.row.uniqueness - 1| > 1 / 10 ^ 19) := by
  by_cases h0 : (filteredRows rows).length = 0
  · have hnil : filteredRows rows = [] := List.length_eq_zero.mp h0
    constructor
    · constructor
      · intro _
        exact hnil
      · intro _
        unfold stat_anal_predicates
        rw [if_pos h0]
    · intro l hl
      unfold stat_anal_predicates at hl
      rw [if_pos h0] at hl
      cases hl
  · have hlen : (statAnalRows rows er).length = (filteredRows rows).length := by
      unfold statAnalRows
      rw [normalize_column_length, normalize_column_length, List.length_map]
    have hne : statAnalRows rows er ≠ [] := by
      intro hc
      apply h0
      rw [← hlen, hc]
      rfl
    have heq : stat_anal_predicates nn rows er
        = Except.ok (some (addRatios (computeScoresRun nn (statAnalRows rows er)))) := by
      unfold stat_anal_predicates
      rw [if_neg h0, compute_scores_ne_nil nn _ hne]
    constructor
    · rw [heq]
      constructor
      · intro hcontra
        simp at hcontra
      · intro hcontra
        exact absurd (List.length_eq_zero.mpr hcontra) h0
    · intro l hl
      rw [heq] at hl
      have hl' : l = addRatios (computeScoresRun nn (statAnalRows rows er)) :=
        (Option.some.inj (Except.ok.inj hl)).symm
      subst hl'
      intro q hq
      have hq1 : q.1 ∈ computeScoresRun nn (statAnalRows rows er) :=
        mem_addRatios _ q hq
      have hq2 : q.1 ∈ (statAnalRows rows er).map
          (fun p => (⟨p.1, p.2, finalScore (statAnalRows rows er) p.2, nn p.2⟩
            : ScoredRow ℝ)) :=
        (List.mem_insertionSort scoreGE).mp hq1
      rcases List.mem_map.mp hq2 with ⟨p, hp, hpq⟩
      rw [← hpq]
      show |p.2.uniqueness - 1| > 1 / 10 ^ 19
      unfold statAnalRows at hp
      rcases normalize_column_mem _ (fun r => r.quality)
          (fun r v => { r with quality := v }) (fun r v => rfl) p hp
        with ⟨p1, hp1, _, hu1⟩
      rcases normalize_column_mem _ (fun r => r.entropy)
          (fun r v => { r with entropy := v }) (fun r v => rfl) p1 hp1
        with ⟨p2, hp2, _, hu2⟩
      rcases List.mem_map.mp hp2 with ⟨p3, hp3, rfl⟩
      have hu3 : p.2.uniqueness = p3.2.uniqueness := by
        rw [hu1, hu2]
        rfl
      rw [hu3]
      unfold filteredRows at hp3
      have := (List.mem_filter.mp hp3).2
      exact of_decide_eq_true this

/-- Witness for C6: a single identifier-like predicate with uniqueness 1.0
is filtered out and the analyzer reports "no analysis available". -/
theorem stat_anal_uniqueness_filter_witness :
    filteredRows [("p1", (⟨1, 1, 1, 1⟩ : BaseRow ℝ))] = [] ∧
    stat_anal_predicates (fun _ => 0) [("p1", (⟨1, 1, 1, 1⟩ : BaseRow ℝ))] []
      = Except.ok none := by
  have hf : filteredRows [("p1", (⟨1, 1, 1, 1⟩ : BaseRow ℝ))] = [] := by
    have hs : ("p1" : String) ≠ "<http://www.w3.org/1999/02/22-rdf-syntax-ns#type>" := by
      decide
    have hr : ¬ (|((⟨1, 1, 1, 1⟩ : BaseRow ℝ)).uniqueness - 1| > 1 / 10 ^ 19) := by
      norm_num
    unfold filteredRows
    simp [List.filter_cons, hs, hr]
  exact ⟨hf, ((stat_anal_uniqueness_filter (fun _ => 0) _ []).1).mpr hf⟩

theorem decisions_get? (mean : K) :
    ∀ (data : List (SRow K)) (t : K) (i : ℕ) (r : SRow K), data[i]? = some r →
      (decisions mean data t)[i]?
        = some (r, delFlag mean (t - ((data.take i).map (fun x => x.score)).sum) r) := by
  intro data
  induction data with
  | nil =>
    intro t i r hr
    simp at hr
  | cons d rest ih =>
    intro t i r hr
    cases i with
    | zero =>
      have hd : d = r := by simpa using hr
      subst hd
      simp only [List.take_zero, List.map_nil, List.sum_nil, sub_zero]
      have hcons : decisions mean (d :: rest) t
          = (d, delFlag mean t d) :: decisions mean rest (t - d.score) := rfl
      rw [hcons, List.getElem?_cons_zero]
    | succ i =>
      have hr' : rest[i]? = some r := by simpa using hr
      have hrec := ih (t - d.score) i r hr'
      have hcons : decisions mean (d :: rest) t
          = (d, delFlag mean t d) :: decisions mean rest (t - d.score) := rfl
      rw [hcons, List.getElem?_cons_succ, hrec]
      have harith : t - d.score - ((rest.take i).map (fun x => x.score)).sum
          = t - (((d :: rest).take (i + 1)).map (fun x => x.score)).sum := by
        rw [List.take_succ_cons, List.map_cons, List.sum_cons]
        ring
      rw [harith]

/-- C4: walking predicates in descending score order with a budget starting
at 60 decremented by each score, a predicate is deleted iff its classifier
confidence is <= 0.5 and either the budget was already exhausted when it
was reached, or it was score-kept but the hybrid value
`keep + keep*score/meanPassedScore` is < 0.5; any predicate with confidence
> 0.5 is kept. -/
theorem preds_to_delete_spec (data : List (SRow K)) (i : ℕ) (r : SRow K)
    (hr : data[i]? = some r) :
    ((decisions (meanPassedScore data) data 60)[i]? = some (r, true) ↔
      (r.keep ≤ 1 / 2 ∧
        ((60 - ((data.take i).map (fun x => x.score)).sum ≤ 0) ∨
          (0 < 60 - ((data.take i).map (fun x => x.score)).sum ∧
            r.keep + r.keep * r.score / meanPassedScore data < 1 / 2)))) ∧
    (1 / 2 < r.keep →
      (decisions (meanPassedScore data) data 60)[i]? = some (r, false)) ∧
    preds_to_delete data
      = ((decisions (meanPassedScore data) data 60).filter (fun p => p.2)).map
        (fun p => p.1) := by
  have hget := decisions_get? (meanPassedScore data) data 60 i r hr
  refine ⟨?_, ?_, rfl⟩
  · rw [hget]
    constructor
    · intro heq
      have hflag : delFlag (meanPassedScore data)
          (60 - ((data.take i).map (fun x => x.score)).sum) r = true :=
        congrArg Prod.snd (Option.some.inj heq)
      unfold delFlag at hflag
      by_cases h1 : r.keep > 1 / 2
      · rw [if_pos h1] at hflag
        cases hflag
      · have hk : r.keep ≤ 1 / 2 := le_of_not_lt h1
        rw [if_neg h1] at hflag
        by_cases h2 : (60 : K) - ((data.take i).map (fun x => x.score)).sum > 0
        · rw [if_pos h2] at hflag
          exact ⟨hk, Or.inr ⟨h2, of_decide_eq_true hflag⟩⟩
        · exact ⟨hk, Or.inl (le_of_not_lt h2)⟩
    · rintro ⟨hk, hcase⟩
      have h1 : ¬ (r.keep > 1 / 2) := not_lt.mpr hk
      rcases hcase with hbudget | ⟨hbudget, hhyb⟩
      · have h2 : ¬ ((60 : K) - ((data.take i).map (fun x => x.score)).sum > 0) :=
          not_lt.mpr hbudget
        unfold delFlag
        rw [if_neg h1, if_neg h2]
      · unfold delFlag
        rw [if_neg h1, if_pos hbudget, decide_eq_true hhyb]
  · intro hkeep
    rw [hget]
    unfold delFlag
    rw [if_pos hkeep]

/-- Witness for C4: a zero-confidence predicate inside the budget with a
hybrid value below 0.5 is deleted. -/
theorem preds_to_delete_spec_witness :
    (([(⟨"p", 10, 0⟩ : SRow ℚ)] : List (SRow ℚ))[0]? = some ⟨"p", 10, 0⟩) ∧
    ((decisions (meanPassedScore [(⟨"p", 10, 0⟩ : SRow ℚ)])
        [(⟨"p", 10, 0⟩ : SRow ℚ)] 60)[0]? = some (⟨"p", 10, 0⟩, true) ↔
      ((0 : ℚ) ≤ 1 / 2 ∧
        ((60 - (([(⟨"p", 10, 0⟩ : SRow ℚ)].take 0).map (fun x => x.score)).sum ≤ 0) ∨
          (0 < 60 - (([(⟨"p", 10, 0⟩ : SRow ℚ)].take 0).map (fun x => x.score)).sum ∧
            (0 : ℚ) + 0 * 10 / meanPassedScore [(⟨"p", 10, 0⟩ : SRow ℚ)] < 1 / 2)))) := by
  refine ⟨rfl, ?_⟩
  exact (preds_to_delete_spec [(⟨"p", 10, 0⟩ : SRow ℚ)] 0 ⟨"p", 10, 0⟩ rfl).1

theorem findSome?_some_exists {A B : Type} (l : List A) (f : A → Option B)
    (b : B) (h : l.findSome? f = some b) : ∃ a ∈ l, f a = some b := by
  induction l with
  | nil => cases h
  | cons x t ih =>
    rw [List.findSome?_cons] at h
    cases hf : f x with
    | some y =>
      rw [hf] at h
      exact ⟨x, List.mem_cons_self x t, hf.trans h⟩
    | none =>
      rw [hf] at h
      rcases ih h with ⟨a, ha, hfa⟩
      exact ⟨a, List.mem_cons_of_mem x ha, hfa⟩

theorem findConflict_some (st : TypeState) (s t1 t2 : String)
    (h : findConflict st = some (s, t1, t2)) :
    (s, t1) ∈ st.types ∧ (s, t2) ∈ st.types ∧ t1 ≠ t2 := by
  unfold findConflict at h
  rcases findSome?_some_exists _ _ _ h with ⟨p, hp, hfp⟩
  rcases Option.map_eq_some'.mp hfp with ⟨q, hq, hqe⟩
  have hps : p.1 = s := congrArg (fun x => x.1) hqe
  have hpt : p.2 = t1 := congrArg (fun x => x.2.1) hqe
  have hqt : q.2 = t2 := congrArg (fun x => x.2.2) hqe
  have hqmem : q ∈ st.types := List.mem_of_find?_eq_some hq
  have hqpred := List.find?_some hq
  have hqp : q.1 = p.1 ∧ ¬ q.2 = p.2 := of_decide_eq_true hqpred
  refine ⟨?_, ?_, ?_⟩
  · have : p = (s, t1) := Prod.ext hps hpt
    exact this ▸ hp
  · have : q = (s, t2) := Prod.ext (hqp.1.trans hps) hqt
    exact this ▸ hqmem
  · intro hcontra
    exact hqp.2 (by rw [hqt, hpt, hcontra])

theorem findConflict_none (st : TypeState)
    (h : findConflict st = none) :
    ∀ s t1 t2, (s, t1) ∈ st.types → (s, t2) ∈ st.types → t1 = t2 := by
  intro s t1 t2 h1 h2
  unfold findConflict at h
  have hall := List.findSome?_eq_none_iff.mp h (s, t1) h1
  have hfind : st.types.find? (fun q => decide (q.1 = (s, t1).1 ∧ ¬ q.2 = (s, t1).2))
      = none := by
    cases hf : st.types.find? (fun q => decide (q.1 = (s, t1).1 ∧ ¬ q.2 = (s, t1).2)) with
    | none => rfl
    | some q =>
      rw [hf] at hall
      cases hall
  have hq := List.find?_eq_none.mp hfind (s, t2) h2
  have : ¬ ((s, t2).1 = (s, t1).1 ∧ ¬ (s, t2).2 = (s, t1).2) := by
    intro hc
    exact hq (decide_eq_true hc)
  by_contra hne
  apply this
  refine ⟨rfl, ?_⟩
  show ¬ t2 = t1
  exact fun he => hne he.symm

theorem resolvePair_shrinks (keep skip : String) (st : TypeState) (s : String)
    (hskip : (s, skip) ∈ st.types) (hkeep : (s, keep) ∈ st.types) :
    (resolvePair keep skip st).types.length < st.types.length := by
  unfold resolvePair
  apply List.length_filter_lt_length_iff_exists.mpr
  refine ⟨(s, skip), hskip, ?_⟩
  intro hc
  have := of_decide_eq_true hc
  exact this ⟨rfl, hkeep⟩

theorem fix_types_succ (scores : String → K) (fuel : ℕ) (st : TypeState) :
    fix_types scores (fuel + 1) st
      = match findConflict st with
        | none => st
        | some (_, t1, t2) =>
          fix_types scores fuel
            (if scores t1 > scores t2 then resolvePair t1 t2 st
              else resolvePair t2 t1 st) := by
  rw [fix_types]

theorem fix_types_fuel :
    ∀ (scores : String → K) (fuel : ℕ) (st : TypeState),
      st.types.length ≤ fuel →
      findConflict (fix_types scores fuel st) = none := by
  intro scores fuel
  induction fuel with
  | zero =>
    intro st hlen
    have hnil : st.types = [] := List.length_eq_zero.mp (Nat.le_zero.mp hlen)
    show findConflict st = none
    unfold findConflict
    rw [hnil]
    rfl
  | succ fuel ih =>
    intro st hlen
    show findConflict (fix_types scores (fuel + 1) st) = none
    rw [fix_types]
    cases hc : findConflict st with
    | none => exact hc
    | some x =>
      rcases x with ⟨s, t1, t2⟩
      show findConflict (fix_types scores fuel
        (if scores t1 > scores t2 then resolvePair t1 t2 st
          else resolvePair t2 t1 st)) = none
      rcases findConflict_some st s t1 t2 hc with ⟨h1, h2, _⟩
      by_cases hgt : scores t1 > scores t2
      · rw [if_pos hgt]
        apply ih
        have := resolvePair_shrinks t1 t2 st s h2 h1
        omega
      · rw [if_neg hgt]
        apply ih
        have := resolvePair_shrinks t2 t1 st s h1 h2
        omega

/-- C7: duplicate-type resolution reaches a fixpoint with no entity holding
two distinct primary types (within `st.types.length` iterations); each
rewrite keeps the strictly-higher-scoring type as the primary assertion and
moves the other to the additional-type predicate for every affected
subject; and on the concrete scenario of entity "E" typed both "A" (score
0.9) and "B" (score 0.4) the fixpoint leaves "A" as the only primary type
of "E" with "B" asserted only through the additional-type predicate. -/
theorem fix_types_spec :
    (∀ (scores : String → K) (st : TypeState) (s t1 t2 : String),
      (s, t1) ∈ (fix_types scores st.types.length st).types →
      (s, t2) ∈ (fix_types scores st.types.length st).types → t1 = t2) ∧
    (∀ (keep skip s : String) (st : TypeState), keep ≠ skip →
      (s, skip) ∈ st.types → (s, keep) ∈ st.types →
      (s, skip) ∉ (resolvePair keep skip st).types ∧
      (s, skip) ∈ (resolvePair keep skip st).addl ∧
      (s, keep) ∈ (resolvePair keep skip st).types) ∧
    (∀ (scores : String → K) (fuel : ℕ) (st : TypeState) (s t1 t2 : String),
      findConflict st = some (s, t1, t2) →
      ∃ keep skip, ((keep, skip) = (t1, t2) ∨ (keep, skip) = (t2, t1)) ∧
        scores skip ≤ scores keep ∧
        fix_types scores (fuel + 1) st
          = fix_types scores fuel (resolvePair keep skip st)) ∧
    fix_types (fun t => if t = "A" then (9 : ℚ) / 10
        else if t = "B" then 4 / 10 else 0) 2
        ⟨[("E", "A"), ("E", "B")], []⟩
      = ⟨[("E", "A")], [("E", "B")]⟩ := by
  refine ⟨?_, ?_, ?_, ?_⟩
  · intro scores st s t1 t2 h1 h2
    exact findConflict_none _ (fix_types_fuel scores st.types.length st (le_refl _))
      s t1 t2 h1 h2
  · intro keep skip s st hne hskip hkeep
    refine ⟨?_, ?_, ?_⟩
    · intro hc
      unfold resolvePair at hc
      have := of_decide_eq_true (List.mem_filter.mp hc).2
      exact this ⟨rfl, hkeep⟩
    · unfold resolvePair
      apply List.mem_append_right
      apply List.mem_map.mpr
      refine ⟨(s, skip), ?_, rfl⟩
      apply List.mem_filter.mpr
      exact ⟨hskip, decide_eq_true ⟨rfl, hkeep⟩⟩
    · unfold resolvePair
      apply List.mem_filter.mpr
      refine ⟨hkeep, decide_eq_true ?_⟩
      intro hc
      exact hne hc.1
  · intro scores fuel st s t1 t2 hc
    by_cases hgt : scores t1 > scores t2
    · refine ⟨t1, t2, Or.inl rfl, le_of_lt hgt, ?_⟩
      rw [fix_types, hc]
      show fix_types scores fuel (if scores t1 > scores t2 then resolvePair t1 t2 st
        else resolvePair t2 t1 st) = _
      rw [if_pos hgt]
    · refine ⟨t2, t1, Or.inr rfl, le_of_not_lt hgt, ?_⟩
      rw [fix_types, hc]
      show fix_types scores fuel (if scores t1 > scores t2 then resolvePair t1 t2 st
        else resolvePair t2 t1 st) = _
      rw [if_neg hgt]
  · have h1 : findConflict (⟨[("E", "A"), ("E", "B")], []⟩ : TypeState)
        = some ("E", "A", "B") := by decide
    have h2 : resolvePair "A" "B" (⟨[("E", "A"), ("E", "B")], []⟩ : TypeState)
        = ⟨[("E", "A")], [("E", "B")]⟩ := by decide
    have h3 : findConflict (⟨[("E", "A")], [("E", "B")]⟩ : TypeState) = none := by
      decide
    have hcond : ((fun t => if t = "A" then (9 : ℚ) / 10
        else if t = "B" then 4 / 10 else 0) "A")
        > ((fun t => if t = "A" then (9 : ℚ) / 10
        else if t = "B" then 4 / 10 else 0) "B") := by
      norm_num [show ("B" : String) ≠ "A" from by decide]
    rw [fix_types_succ, h1]
    show fix_types (fun t => if t = "A" then (9 : ℚ) / 10
        else if t = "B" then 4 / 10 else 0) 1
        (if ((fun t => if t = "A" then (9 : ℚ) / 10
            else if t = "B" then 4 / 10 else 0) "A")
            > ((fun t => if t = "A" then (9 : ℚ) / 10
            else if t = "B" then 4 / 10 else 0) "B") then
          resolvePair "A" "B" ⟨[("E", "A"), ("E", "B")], []⟩
        else resolvePair "B" "A" ⟨[("E", "A"), ("E", "B")], []⟩)
      = ⟨[("E", "A")], [("E", "B")]⟩
    rw [if_pos hcond, h2, fix_types_succ, h3]

/-- Witness for C7: the resolve step on the two-type scenario state. -/
theorem fix_types_spec_witness :
    (("A" : String) ≠ "B" ∧
      (("E", "B") ∈ (⟨[("E", "A"), ("E", "B")], []⟩ : TypeState).types) ∧
      (("E", "A") ∈ (⟨[("E", "A"), ("E", "B")], []⟩ : TypeState).types)) ∧
    ((("E", "B") ∉ (resolvePair "A" "B" ⟨[("E", "A"), ("E", "B")], []⟩).types) ∧
      (("E", "B") ∈ (resolvePair "A" "B" ⟨[("E", "A"), ("E", "B")], []⟩).addl) ∧
      (("E", "A") ∈ (resolvePair "A" "B" ⟨[("E", "A"), ("E", "B")], []⟩).types)) := by
  refine ⟨⟨by decide, by decide, by decide⟩, ?_⟩
  exact (fix_types_spec (K := ℚ)).2.1 "A" "B" "E" ⟨[("E", "A"), ("E", "B")], []⟩
    (by decide) (by decide) (by decide)

/-- C8: both cache prologues adopt the stored payload only when the stored
version equals the current mutation-log line count: `recalculate` comes out
false exactly on a version match; on a version mismatch the surrounding
function recomputes (whatever the stale payload was, identical or not); and
a cache file that fails to deserialize yields a recomputation, not a
failure. -/
theorem cache_version_gate {A : Type} (load : Except Unit (ℕ × A)) (cur : ℕ)
    (recompute : A) :
    ((statAnalCache load cur).1 = false ↔ ∃ d, load = Except.ok (cur, d)) ∧
    ((relationsCache load cur).1 = false ↔ ∃ d, load = Except.ok (cur, d)) ∧
    (∀ d, (statAnalCache load cur).2 = some d → load = Except.ok (cur, d)) ∧
    (∀ d, (relationsCache load cur).2 = some d → load = Except.ok (cur, d)) ∧
    (∀ v d, load = Except.ok (v, d) → v ≠ cur →
      useCacheOr (statAnalCache load cur) recompute = recompute ∧
      useCacheOr (relationsCache load cur) recompute = recompute) ∧
    (∀ e, load = Except.error e →
      useCacheOr (statAnalCache load cur) recompute = recompute ∧
      useCacheOr (relationsCache load cur) recompute = recompute) := by
  have hsame : relationsCache load cur = statAnalCache load cur := by
    cases load with
    | ok p => rfl
    | error e => rfl
  have hfst : (statAnalCache load cur).1 = false ↔ ∃ d, load = Except.ok (cur, d) := by
    cases load with
    | ok p =>
      rcases p with ⟨v, d⟩
      by_cases hv : v = cur
      · subst hv
        simp [statAnalCache]
      · constructor
        · intro hc
          have hc2 : (if v = cur then ((false, some d) : Bool × Option A)
              else (true, none)).1 = false := hc
          rw [if_neg hv] at hc2
          cases hc2
        · rintro ⟨d', hd'⟩
          have : v = cur := by
            have := Except.ok.inj hd'
            exact congrArg Prod.fst this
          exact absurd this hv
    | error e =>
      constructor
      · intro hc
        cases hc
      · rintro ⟨d', hd'⟩
        cases hd'
  have hsnd : ∀ d, (statAnalCache load cur).2 = some d → load = Except.ok (cur, d) := by
    intro d hd
    cases load with
    | ok p =>
      rcases p with ⟨v, d'⟩
      by_cases hv : v = cur
      · subst hv
        have hd2 : (if v = v then ((false, some d') : Bool × Option A)
            else (true, none)).2 = some d := hd
        rw [if_pos rfl] at hd2
        have : d' = d := Option.some.inj hd2
        rw [this]
      · have hd2 : (if v = cur then ((false, some d') : Bool × Option A)
            else (true, none)).2 = some d := hd
        rw [if_neg hv] at hd2
        cases hd2
    | error e => cases hd
  refine ⟨hfst, by rw [hsame]; exact hfst, hsnd, by rw [hsame]; exact hsnd, ?_, ?_⟩
  · intro v d hload hv
    subst hload
    have hcache : statAnalCache (Except.ok (v, d)) cur = (true, none) := by
      show (if v = cur then ((false, some d) : Bool × Option A) else (true, none))
        = (true, none)
      rw [if_neg hv]
    rw [hsame, hcache]
    exact ⟨rfl, rfl⟩
  · intro e hload
    subst hload
    rw [hsame]
    exact ⟨rfl, rfl⟩

/-- Witness for C8 at concrete loads: a stale version and a corrupt file
both lead to recomputation. -/
theorem cache_version_gate_witness :
    ((5, (7 : ℕ)) = (5, 7) ∧ (5 : ℕ) ≠ 6 ∧
      useCacheOr (statAnalCache (Except.ok (5, (7 : ℕ))) 6) 42 = 42) ∧
    (useCacheOr (statAnalCache (Except.error () : Except Unit (ℕ × ℕ)) 6) 42 = 42) := by
  refine ⟨⟨rfl, by decide, ?_⟩, ?_⟩
  · exact ((cache_version_gate (Except.ok (5, (7 : ℕ))) 6 42).2.2.2.2.1 5 7 rfl
      (by decide)).1
  · exact ((cache_version_gate (Except.error () : Except Unit (ℕ × ℕ)) 6 42).2.2.2.2.2
      () rfl).1

end Theorems

end KGExplorer
